import Mathlib

/-!
Verification of the distributed average-consensus / additive secret sharing
simulator (repository `PE-miniproject-1`).

The Python sources are shallowly embedded:

* `graph_generation/graph.py` — topology construction (`Graph.__init__`,
  `_initialize_ring/star/tree/mesh/full`, `_connect`, `_is_connected`);
* `src/secret_sharing/node.py` — `Node.generate_shares`,
  `Node.apply_received_shares`, `Node.__deepcopy__`;
* `src/secret_sharing/simulation.py` — `Simulation.run_simulation`,
  `_get_noise`, `_perform_sync_update`, `_perform_async_update`,
  `_check_consensus`;
* `src/secret_sharing/results.py` — `StepResult`, `SimulationResult`.

Node ids are 0-based list indices, so a graph is the node count together
with an id-indexed family of neighbour-id sets; Python `float` values are
embedded as `ℚ` (exact arithmetic; floating-point rounding is out of scope).
Randomness (uniform share draws, noise draws, gossip peer selection) is
embedded as explicit input data, so theorems quantify over every possible
outcome of the random draws.
-/

namespace PEMini

/-- `Topology` enum from `graph_generation/graph.py`. -/
inductive Topology where
  | RING | STAR | TREE | MESH | FULL
deriving DecidableEq, Repr

/-- `Algorithm` enum from `simulation.py`. -/
inductive Algorithm where
  | SYNCHRONOUS | ASYNCHRONOUS
deriving DecidableEq, Repr

/-- `NoiseDistribution` enum from `simulation.py`. -/
inductive NoiseDistribution where
  | UNIFORM | GAUSSIAN | LAPLACE
deriving DecidableEq, Repr

/-- Python exceptions that the embedded code can raise. `valueErrorEmptyMax`
is `ValueError: max() arg is an empty sequence`, `valueErrorZipStrict` is the
`ValueError` raised by `zip(..., strict=True)` on length mismatch,
`indexError` is `IndexError` from indexing an empty list,
`typeErrorMissingName` is the `TypeError` raised by calling the
`SimulationResult` dataclass constructor without its required `name`
argument, and `emptyGraph` models the clear precondition-style "empty
graph" failure that the spec's error-handling section calls for (shown
below never to be produced). -/
inductive PyErr where
  | valueErrorEmptyMax | valueErrorZipStrict | indexError
  | typeErrorMissingName | emptyGraph
deriving DecidableEq, Repr

/-- A graph: node ids are `0, …, n-1` (ids are list indices in
`Graph.__init__`), and `nbrs i` is the set of neighbour ids of node `i`
(`Node.neighbors`, with membership by id as in `Node.__eq__`/`__hash__`). -/
structure Graph where
  n : ℕ
  nbrs : ℕ → Finset ℕ

/-- Well-formedness: every neighbour set mentions only existing nodes, and
nodes that do not exist have no neighbours. -/
def Graph.wf (g : Graph) : Prop :=
  ∀ i, g.nbrs i ⊆ Finset.range g.n ∧ (g.n ≤ i → g.nbrs i = ∅)

/-- The neighbour relation is symmetric. -/
def Graph.symm (g : Graph) : Prop :=
  ∀ i j, j ∈ g.nbrs i ↔ i ∈ g.nbrs j

/-- No node is a member of its own neighbour set. -/
def Graph.noSelfLoops (g : Graph) : Prop :=
  ∀ i, i ∉ g.nbrs i

/-- One half of `Graph._connect`: `node1.neighbors.add(node2)`. -/
def addNbr (f : ℕ → Finset ℕ) (a b : ℕ) : ℕ → Finset ℕ :=
  fun i => if i = a then insert b (f i) else f i

/-- `Graph._connect(node1, node2)`: adds each node to the other's neighbour
set (`set.add`, so duplicates are absorbed). -/
def connect (f : ℕ → Finset ℕ) (a b : ℕ) : ℕ → Finset ℕ :=
  addNbr (addNbr f a b) b a

/-- Folding `_connect` over a list of (unordered, as applied) node-id pairs,
starting from the all-empty neighbour map of `Graph.__init__`. -/
def buildNbrs (E : List (ℕ × ℕ)) : ℕ → Finset ℕ :=
  E.foldl (fun f e => connect f e.1 e.2) (fun _ => ∅)

/-- Edge list traced by `_initialize_ring`: `_connect(nodes[i], nodes[(i+1) % n])`
for `i in range(n)`. -/
def ringEdges (n : ℕ) : List (ℕ × ℕ) :=
  (List.range n).map (fun i => (i, (i + 1) % n))

/-- `Graph._initialize_ring`. -/
def ringGraph (n : ℕ) : Graph :=
  ⟨n, buildNbrs (ringEdges n)⟩

/-- Edge list traced by `_initialize_star`: `_connect(nodes[0], node)` for
each `node` in `nodes[1:]`. -/
def starEdges (n : ℕ) : List (ℕ × ℕ) :=
  (List.range (n - 1)).map (fun k => (0, k + 1))

/-- `Graph._initialize_star`. `self.nodes[0]` raises `IndexError` on an
empty node list, hence the error case for `n = 0`. -/
def starGraph (n : ℕ) : Except PyErr Graph :=
  if n = 0 then .error .indexError
  else .ok ⟨n, buildNbrs (starEdges n)⟩

/-- Edge list traced by `_initialize_tree`:
`_connect(nodes[i], nodes[(i-1) // 2])` for `i in range(1, n)`. -/
def treeEdges (n : ℕ) : List (ℕ × ℕ) :=
  (List.range (n - 1)).map (fun k => (k + 1, k / 2))

/-- `Graph._initialize_tree`. -/
def treeGraph (n : ℕ) : Graph :=
  ⟨n, buildNbrs (treeEdges n)⟩

/-- Edge list traced by `_initialize_full`: all pairs `i < j`. -/
def fullEdges (n : ℕ) : List (ℕ × ℕ) :=
  (List.range n).flatMap (fun i =>
    ((List.range n).filter (fun j => i < j)).map (fun j => (i, j)))

/-- `Graph._initialize_full`. -/
def fullGraph (n : ℕ) : Graph :=
  ⟨n, buildNbrs (fullEdges n)⟩

/-- One step of the breadth-first expansion of `Graph._is_connected`:
every node reachable in one more hop. -/
def expandReach (g : Graph) (s : Finset ℕ) : Finset ℕ :=
  s ∪ s.biUnion g.nbrs

/-- `Graph._is_connected`: breadth-first reachability from node 0, then
compare the number of reached nodes with the number of nodes. The BFS
fixpoint is reached after at most `n` expansion steps (any reachable node is
reachable by a repeat-free path). -/
def isConnectedB (g : Graph) : Bool :=
  if g.n = 0 then true
  else decide (((expandReach g)^[g.n] {0}).card = g.n)

/-- Edges drawn by the Erdős–Rényi pass of `_initialize_mesh`:
`combinations(nodes, 2)` yields the pairs `i < j`; `draw i j` is the outcome
of `random.random() < p` for that pair. Since `p = clamp(1/ln(n+2), 0.02, 0.8)`
lies strictly between 0 and 1, every Boolean outcome function has positive
probability, so `draw` is universally quantified. -/
def meshEdges (n : ℕ) (draw : ℕ → ℕ → Bool) : List (ℕ × ℕ) :=
  (fullEdges n).filter (fun e => draw e.1 e.2)

/-- `Graph._initialize_mesh`. For `n < 2` it returns immediately (before the
probability computation), leaving the edgeless graph. Otherwise it draws the
Erdős–Rényi edges and, if the result is connected, returns it. If the result
is disconnected, the repair pass builds a `networkx` graph from the edge list
(so a graph with *no* edges at all yields an empty component list), lists its
connected components `comps`, and iterates `zip(comps, comps[1:], strict=True)`:
with `k ≥ 1` components the two zipped lists have lengths `k` and `k - 1`, so
after the loop body has run `k - 1` times the strict zip raises
`ValueError`, which escapes `Graph.__init__` — no graph object is produced
(the bridge edges added before the raise are unobservable). Only when the
drawn edge list is empty is `comps` empty, the strict zip of two empty lists
succeeds, and the disconnected edgeless graph is returned. -/
def meshGraph (n : ℕ) (draw : ℕ → ℕ → Bool) : Except PyErr Graph :=
  if n < 2 then .ok ⟨n, fun _ => ∅⟩
  else if isConnectedB ⟨n, buildNbrs (meshEdges n draw)⟩ then
    .ok ⟨n, buildNbrs (meshEdges n draw)⟩
  else if meshEdges n draw = [] then .ok ⟨n, buildNbrs (meshEdges n draw)⟩
  else .error .valueErrorZipStrict

/-- `Graph.__init__(num_nodes, topology)` → `_initialize_connections`. -/
def buildTopology (t : Topology) (n : ℕ) (draw : ℕ → ℕ → Bool) :
    Except PyErr Graph :=
  match t with
  | .RING => .ok (ringGraph n)
  | .STAR => starGraph n
  | .TREE => .ok (treeGraph n)
  | .MESH => meshGraph n draw
  | .FULL => .ok (fullGraph n)

/-! ### Node values, secret sharing, and the simulation engine

Node values are carried as a valuation `v : ℕ → ℚ` indexed by node id
(`node.value` for each node of the graph's node list), alongside the
topology `Graph`. -/

/-- Python's `max` over a list: raises `ValueError` on an empty sequence,
otherwise folds the binary maximum over the elements. -/
def pyMax {α : Type} [LinearOrder α] (l : List α) : Except PyErr α :=
  match l with
  | [] => .error .valueErrorEmptyMax
  | x :: xs => .ok (xs.foldl max x)

/-- Python's `min` over a list (only used on nonempty value lists). -/
def pyMin {α : Type} [LinearOrder α] (l : List α) : Except PyErr α :=
  match l with
  | [] => .error .valueErrorEmptyMax
  | x :: xs => .ok (xs.foldl min x)

/-- `Node.generate_shares`, effect on `self.value`: one share per neighbour
is drawn (`sh j` is the draw for neighbour `j`) and their sum is subtracted.
The returned dict maps each neighbour id `j` to `sh j`. -/
def generateSharesValue (nbrs : Finset ℕ) (v : ℚ) (sh : ℕ → ℚ) : ℚ :=
  v - ∑ j ∈ nbrs, sh j

/-- `Node.apply_received_shares`: adds the sum of the received share list. -/
def applyReceivedShares (v : ℚ) (received : List ℚ) : ℚ :=
  v + received.sum

/-- Modelled from the spec: `Graph.apply_shares(random_range)` of the
secret-sharing `Graph` class (its module is not in the source snapshot; only
the `Node` primitives above are). Per the spec, every node first generates
one random share per neighbour and subtracts the sum of its sent shares from
its value (`Node.generate_shares`), and afterwards every node adds the sum
of the shares addressed to it by its neighbours
(`Node.apply_received_shares`). `sh i j` is the share node `i` draws for its
neighbour `j` (each uniform in `[-random_range, random_range]`; the draws
are universally quantified, and any rational is a possible draw). -/
def applyShares (g : Graph) (sh : ℕ → ℕ → ℚ) (v : ℕ → ℚ) : ℕ → ℚ :=
  fun i =>
    applyReceivedShares (generateSharesValue (g.nbrs i) (v i) (sh i))
      (((g.nbrs i).sort (· ≤ ·)).map (fun j => sh j i))

/-- Modelled from the spec: `Graph.get_max_error` returns
`max over nodes of |node.value − true_avg|`; `max` of an empty sequence
raises `ValueError`. -/
def getMaxError (g : Graph) (v : ℕ → ℚ) (trueAvg : ℚ) : Except PyErr ℚ :=
  pyMax ((List.range g.n).map (fun i => |v i - trueAvg|))

/-- Modelled from the spec: `Graph.avg`, the arithmetic mean of the current
node values (read once at the end of `run_simulation` as `final_avg`). -/
def avg (g : Graph) (v : ℕ → ℚ) : ℚ :=
  (∑ i ∈ Finset.range g.n, v i) / g.n

/-- `SimulationConfig` from `simulation.py`. The noise scale only scales the
sampled noise values, which in this embedding are inputs, so it is not a
separate parameter here. -/
structure SimulationConfig where
  algorithm : Algorithm
  maxIterations : ℕ
  epsilon : ℚ
  noiseDistribution : Option NoiseDistribution

/-- `StepResult` from `results.py`: the values dict is the id-keyed list in
`graph.nodes` order. -/
structure StepResult where
  iteration : ℕ
  values : List (ℕ × ℚ)
  error : ℚ
  activePair : Option (ℕ × ℕ)
deriving DecidableEq

/-- `SimulationResult` from `results.py`: a dataclass whose first field is
the required label `name : str`, followed by the algorithm, the
(deep-copied) graph with its final node values, the history, the iteration
count, and `final_avg = graph.avg`. The `SimulationResult(...)` call at the
end of `run_simulation` passes every field except `name`, so it raises
`TypeError` (see `mkSimulationResult` below). -/
structure SimulationResult where
  name : String
  algorithm : Algorithm
  graph : Graph
  finalValues : ℕ → ℚ
  history : List StepResult
  totalIterations : ℕ
  finalAvg : ℚ

/-- The `SimulationResult(algorithm=..., graph=..., history=...,
total_iterations=..., final_avg=graph.avg)` constructor call at the return
of `run_simulation`: the dataclass declares `name : str` as a required
first field with no default, and the call does not pass it, so CPython
raises `TypeError: missing 1 required positional argument: 'name'` — no
result object is ever created. The would-be field values are the arguments
(they are evaluated before the call fails). -/
def mkSimulationResult (_algorithm : Algorithm) (_graph : Graph)
    (_finalValues : ℕ → ℚ) (_history : List StepResult)
    (_totalIterations : ℕ) (_finalAvg : ℚ) : Except PyErr SimulationResult :=
  .error .typeErrorMissingName

/-- `Simulation._get_noise`: with no distribution configured the noise is
exactly `0.0`; otherwise the freshly sampled value (an input here; the
UNIFORM/GAUSSIAN/LAPLACE branches differ only in the sampler). -/
def getNoise (nd : Option NoiseDistribution) (draw : ℚ) : ℚ :=
  match nd with
  | none => 0
  | some _ => draw

/-- The random draws consumed by one run, all as explicit inputs:
`syncNoise t i j` is the noise sampled when node `i` reads neighbour `j` in
synchronous round `t` (one fresh draw per read); `pickNode t`/`pickNbr t`
select the random node/neighbour in asynchronous step `t` (as indices, taken
modulo the relevant length, so every choice is covered); `asyncNoiseA`/`B`
are the two per-side noise draws of asynchronous step `t`. -/
structure Rand where
  syncNoise : ℕ → ℕ → ℕ → ℚ
  pickNode : ℕ → ℕ
  pickNbr : ℕ → ℕ
  asyncNoiseA : ℕ → ℚ
  asyncNoiseB : ℕ → ℚ

/-- Per-node computation of `Simulation._perform_sync_update`:
`weighted_sum = (1 - degree*alpha) * value + Σ_neighbours alpha * (value_j + noise)`
with every neighbour value read from the frozen pre-update valuation `v`
(the neighbour loop accumulates over the set, embedded as the set sum). -/
def syncNextValue (g : Graph) (alpha : ℚ) (nd : Option NoiseDistribution)
    (noise : ℕ → ℕ → ℚ) (v : ℕ → ℚ) (i : ℕ) : ℚ :=
  (1 - (g.nbrs i).card * alpha) * v i
    + ∑ j ∈ g.nbrs i, alpha * (v j + getNoise nd (noise i j))

/-- `Simulation._perform_sync_update`: first phase computes `next_values`
for every node from the frozen valuation, second phase commits them and
folds `max_change = max(max_change, |old - new|)` starting from `0.0`. -/
def performSyncUpdate (g : Graph) (alpha : ℚ) (nd : Option NoiseDistribution)
    (noise : ℕ → ℕ → ℚ) (v : ℕ → ℚ) : (ℕ → ℚ) × ℚ :=
  let next := syncNextValue g alpha nd noise v
  (next, ((List.range g.n).map (fun i => |v i - next i|)).foldl max 0)

/-- `random.choice(list(node_a.neighbors))` with the random index explicit:
the neighbour set is materialised as its sorted list and `k` (modulo the
list length) selects the element, so every neighbour is a possible
outcome. -/
def chosenNbr (g : Graph) (a k : ℕ) : ℕ :=
  ((g.nbrs a).sort (· ≤ ·)).getD (k % ((g.nbrs a).sort (· ≤ ·)).length) 0

/-- `Simulation._perform_async_update` with the random choices explicit:
`a` is the uniformly chosen node (`random.choice(graph.nodes)`; reaching
this update requires a nonempty node list, and `pickA % g.n` ranges over
exactly the possible indices), and if `a` has neighbours, `b` is the
uniformly chosen neighbour. Both noisy reads use the pre-commit values;
`node_a.value` is committed before `node_b.value`. -/
def performAsyncUpdate (g : Graph) (nd : Option NoiseDistribution)
    (pickA pickB : ℕ) (drawA drawB : ℚ) (v : ℕ → ℚ) :
    (ℕ → ℚ) × Option (ℕ × ℕ) :=
  let a := pickA % g.n
  if g.nbrs a = ∅ then (v, none)
  else
    let b := chosenNbr g a pickB
    let valANoisy := v a + getNoise nd drawA
    let valBNoisy := v b + getNoise nd drawB
    let newA := (v a + valBNoisy) / 2
    let newB := (v b + valANoisy) / 2
    (fun i => if i = b then newB else if i = a then newA else v i, some (a, b))

/-- `Simulation._check_consensus`: synchronous convergence is
`max_change < epsilon`; asynchronous convergence is
`max(values) - min(values) < epsilon` over the full value list (the code
comments that it assumes at least one node). -/
def checkConsensus (g : Graph) (v : ℕ → ℚ) (eps : ℚ) (maxChange : ℚ)
    (alg : Algorithm) : Except PyErr Bool :=
  match alg with
  | .SYNCHRONOUS => .ok (decide (maxChange < eps))
  | .ASYNCHRONOUS =>
      match pyMax ((List.range g.n).map v) with
      | .error e => .error e
      | .ok mx =>
        match pyMin ((List.range g.n).map v) with
        | .error e => .error e
        | .ok mn => .ok (decide (mx - mn < eps))

/-- `Simulation._perform_update`: dispatch on the algorithm;
`max_change, active_pair` start as `0.0, None` and only the branch's own
output is overwritten. -/
def performUpdate (g : Graph) (alpha : ℚ) (cfg : SimulationConfig)
    (rand : Rand) (t : ℕ) (v : ℕ → ℚ) : (ℕ → ℚ) × ℚ × Option (ℕ × ℕ) :=
  match cfg.algorithm with
  | .SYNCHRONOUS =>
      ((performSyncUpdate g alpha cfg.noiseDistribution (rand.syncNoise t) v).1,
        (performSyncUpdate g alpha cfg.noiseDistribution (rand.syncNoise t) v).2,
        none)
  | .ASYNCHRONOUS =>
      ((performAsyncUpdate g cfg.noiseDistribution (rand.pickNode t)
          (rand.pickNbr t) (rand.asyncNoiseA t) (rand.asyncNoiseB t) v).1,
        0,
        (performAsyncUpdate g cfg.noiseDistribution (rand.pickNode t)
          (rand.pickNbr t) (rand.asyncNoiseA t) (rand.asyncNoiseB t) v).2)

/-- The per-step values dict `{node.id: node.value for node in graph.nodes}`. -/
def valuesList (g : Graph) (v : ℕ → ℚ) : List (ℕ × ℚ) :=
  (List.range g.n).map (fun i => (i, v i))

/-- The `for _ in range(max_iterations)` loop of `run_simulation`, by
recursion on the remaining iterations: increment the iteration counter,
perform one update, record error and `StepResult`, and stop early when
`_check_consensus` holds; a raised exception propagates out. Returns the
final valuation, `iterations`, the history, and whether the loop exited via
the `break` (the last component is an observable of the trace, recorded for
the termination analysis). -/
def simLoop (g : Graph) (cfg : SimulationConfig) (rand : Rand) (alpha : ℚ)
    (trueAvg : ℚ) :
    ℕ → (ℕ → ℚ) → ℕ → List StepResult →
    Except PyErr ((ℕ → ℚ) × ℕ × List StepResult × Bool)
  | 0, v, iterations, hist => .ok (v, iterations, hist, false)
  | fuel + 1, v, iterations, hist =>
      let upd := performUpdate g alpha cfg rand iterations v
      match getMaxError g upd.1 trueAvg with
      | .error e => .error e
      | .ok err =>
        let hist' := hist ++ [⟨iterations + 1, valuesList g upd.1, err, upd.2.2⟩]
        match checkConsensus g upd.1 cfg.epsilon upd.2.1 cfg.algorithm with
        | .error e => .error e
        | .ok cons =>
          if cons then .ok (upd.1, iterations + 1, hist', true)
          else simLoop g cfg rand alpha trueAvg fuel upd.1 (iterations + 1) hist'

/-- The `alpha` precomputation of `run_simulation`: `alpha` is initialised
to `0.0` and, for the synchronous algorithm only, set to
`1 / (max_degree + 1)` where
`max_degree = max(len(node.neighbors) for node in graph.nodes)` (which
raises `ValueError` on an empty node list). -/
def computeAlpha (g : Graph) (alg : Algorithm) : Except PyErr ℚ :=
  match alg with
  | .SYNCHRONOUS =>
      match pyMax ((List.range g.n).map (fun i => (g.nbrs i).card)) with
      | .error e => .error e
      | .ok md => .ok (1 / (md + 1 : ℚ))
  | .ASYNCHRONOUS => .ok 0

/-- `Simulation.run_simulation` up to (and excluding) the final
`SimulationResult(...)` constructor call, on the (already deep-copied)
graph state: record the pre-loop state as history entry 0 (whose
`graph.get_max_error()` raises on an empty node list — there is no
empty-graph precondition check anywhere), precompute `alpha`, and run the
main loop. Returns the final valuation, the iteration count and the
history (aliasing of the deep copy is analysed separately in the heap
model below). -/
def runSimulationLoop (g : Graph) (v : ℕ → ℚ) (trueAvg : ℚ)
    (cfg : SimulationConfig) (rand : Rand) :
    Except PyErr ((ℕ → ℚ) × ℕ × List StepResult) :=
  match getMaxError g v trueAvg with
  | .error e => .error e
  | .ok err0 =>
    match computeAlpha g cfg.algorithm with
    | .error e => .error e
    | .ok alpha =>
      match simLoop g cfg rand alpha trueAvg cfg.maxIterations v 0
          [⟨0, valuesList g v, err0, none⟩] with
      | .error e => .error e
      | .ok (vf, iters, hist, _) => .ok (vf, iters, hist)

/-- `Simulation.run_simulation`: run the loop, then build the
`SimulationResult` — whose constructor call omits the required `name`
field of the `results.py` dataclass and therefore raises `TypeError`
(`mkSimulationResult`). -/
def runSimulation (g : Graph) (v : ℕ → ℚ) (trueAvg : ℚ)
    (cfg : SimulationConfig) (rand : Rand) : Except PyErr SimulationResult :=
  match runSimulationLoop g v trueAvg cfg rand with
  | .error e => .error e
  | .ok (vf, iters, hist) =>
      mkSimulationResult cfg.algorithm g vf hist iters (avg g vf)

/-! ### Heap model

`run_simulation` begins with `graph = copy.deepcopy(base_graph)` and must
never mutate the caller's graph. Aliasing of Python objects is modelled with
an explicit heap: `Node` objects live at addresses, `Node.neighbors` holds
addresses (live back-references), and a graph is its ordered list of node
addresses. `Node.__deepcopy__` with its memo dict maps every old node to one
fresh node object; the memoised copy is the address renaming
`a ↦ next + indexOf a` (which fresh address each copy receives is
unobservable). -/

/-- A Python `Node` object: `id`, `value`, `starting_value`, and the
neighbour set as heap addresses (back-references to the other nodes). -/
structure PNode where
  id : ℕ
  val : ℚ
  startingVal : ℚ
  nbrs : Finset ℕ
deriving DecidableEq

/-- The object heap: contents per address, plus the next fresh address
(every allocated address is `< next`). -/
structure Heap where
  mem : ℕ → Option PNode
  next : ℕ

/-- A graph value: the ordered node-address list (`graph.nodes`) and the
`true_avg` scalar. -/
structure HGraph where
  nodeAddrs : List ℕ
  trueAvg : ℚ

/-- The node object stored at `a` (reads of an unallocated address do not
occur in well-formed runs; a dummy node is returned for totality). -/
def Heap.node (h : Heap) (a : ℕ) : PNode :=
  (h.mem a).getD ⟨0, 0, 0, ∅⟩

def heapVal (h : Heap) (a : ℕ) : ℚ := (h.node a).val

def heapNbrs (h : Heap) (a : ℕ) : Finset ℕ := (h.node a).nbrs

/-- `node.value = q`: overwrite only the `value` field of the object at `a`. -/
def setVal (h : Heap) (a : ℕ) (q : ℚ) : Heap :=
  ⟨fun x => if x = a
      then (h.mem a).map (fun nd => ⟨nd.id, q, nd.startingVal, nd.nbrs⟩)
      else h.mem x,
    h.next⟩

/-- `copy.deepcopy(base_graph)`: every node object of `g` is copied to a
fresh address (`Node.__deepcopy__` creates `self.__class__(self.id,
self.value)`, restores `starting_value`, memoises, and deep-copies the
neighbour set, so neighbour references are renamed consistently by the
memo). The renaming is `ρ a = h.next + indexOf a`. -/
def deepcopyGraph (h : Heap) (g : HGraph) : Heap × HGraph :=
  let ρ : ℕ → ℕ := fun a => h.next + g.nodeAddrs.indexOf a
  let mem' : ℕ → Option PNode := fun x =>
    if h.next ≤ x ∧ x < h.next + g.nodeAddrs.length then
      (h.mem (g.nodeAddrs.getD (x - h.next) 0)).map
        (fun nd => ⟨nd.id, nd.val, nd.startingVal, nd.nbrs.image ρ⟩)
    else h.mem x
  (⟨mem', h.next + g.nodeAddrs.length⟩, ⟨g.nodeAddrs.map ρ, g.trueAvg⟩)

/-- `Graph.get_max_error` on the heap (modelled from the spec, as above). -/
def getMaxErrorH (h : Heap) (g : HGraph) : Except PyErr ℚ :=
  pyMax (g.nodeAddrs.map (fun a => |heapVal h a - g.trueAvg|))

/-- `_perform_sync_update` on the heap: all `next_values` are computed from
the frozen heap, then committed node by node. -/
def performSyncUpdateH (h : Heap) (g : HGraph) (alpha : ℚ)
    (nd : Option NoiseDistribution) (noise : ℕ → ℕ → ℚ) : Heap × ℚ :=
  let next : ℕ → ℚ := fun a =>
    (1 - (heapNbrs h a).card * alpha) * heapVal h a
      + ∑ b ∈ heapNbrs h a, alpha * (heapVal h b + getNoise nd (noise a b))
  (g.nodeAddrs.foldl (fun h' a => setVal h' a (next a)) h,
    (g.nodeAddrs.map (fun a => |heapVal h a - next a|)).foldl max 0)

/-- `_perform_async_update` on the heap. -/
def performAsyncUpdateH (h : Heap) (g : HGraph)
    (nd : Option NoiseDistribution) (pickA pickB : ℕ) (drawA drawB : ℚ) :
    Heap × Option (ℕ × ℕ) :=
  let a := g.nodeAddrs.getD (pickA % g.nodeAddrs.length) 0
  if heapNbrs h a = ∅ then (h, none)
  else
    let lst := (heapNbrs h a).sort (· ≤ ·)
    let b := lst.getD (pickB % lst.length) 0
    let newA := (heapVal h a + (heapVal h b + getNoise nd drawB)) / 2
    let newB := (heapVal h b + (heapVal h a + getNoise nd drawA)) / 2
    (setVal (setVal h a newA) b newB, some ((h.node a).id, (h.node b).id))

/-- `_check_consensus` on the heap. -/
def checkConsensusH (h : Heap) (g : HGraph) (eps maxChange : ℚ)
    (alg : Algorithm) : Except PyErr Bool :=
  match alg with
  | .SYNCHRONOUS => .ok (decide (maxChange < eps))
  | .ASYNCHRONOUS =>
      match pyMax (g.nodeAddrs.map (heapVal h)) with
      | .error e => .error e
      | .ok mx =>
        match pyMin (g.nodeAddrs.map (heapVal h)) with
        | .error e => .error e
        | .ok mn => .ok (decide (mx - mn < eps))

/-- One update of the main loop on the heap: the dispatch of
`_perform_update`. -/
def performUpdateH (h : Heap) (g : HGraph) (alpha : ℚ)
    (cfg : SimulationConfig) (rand : Rand) (t : ℕ) : Heap × ℚ :=
  match cfg.algorithm with
  | .SYNCHRONOUS =>
      performSyncUpdateH h g alpha cfg.noiseDistribution (rand.syncNoise t)
  | .ASYNCHRONOUS =>
      ((performAsyncUpdateH h g cfg.noiseDistribution (rand.pickNode t)
        (rand.pickNbr t) (rand.asyncNoiseA t) (rand.asyncNoiseB t)).1, 0)

/-- The main loop of `run_simulation` on the heap (history recording only
reads the heap and is elided here; the pure model above carries it). -/
def simLoopH (g : HGraph) (cfg : SimulationConfig) (rand : Rand) (alpha : ℚ) :
    ℕ → Heap → ℕ → Except PyErr (Heap × ℕ)
  | 0, h, iterations => .ok (h, iterations)
  | fuel + 1, h, iterations =>
      let upd := performUpdateH h g alpha cfg rand iterations
      match getMaxErrorH upd.1 g with
      | .error e => .error e
      | .ok _ =>
        match checkConsensusH upd.1 g cfg.epsilon upd.2 cfg.algorithm with
        | .error e => .error e
        | .ok cons =>
          if cons then .ok (upd.1, iterations + 1)
          else simLoopH g cfg rand alpha fuel upd.1 (iterations + 1)

/-- `Simulation.run_simulation` on the heap: deep-copy the base graph, then
run entirely on the copy. Returns the final heap, the copied graph, and the
iteration count. -/
def runSimulationH (h : Heap) (g : HGraph) (cfg : SimulationConfig)
    (rand : Rand) : Except PyErr (Heap × HGraph × ℕ) :=
  let hgc := deepcopyGraph h g
  match getMaxErrorH hgc.1 hgc.2 with
  | .error e => .error e
  | .ok _ =>
    match ((match cfg.algorithm with
           | .SYNCHRONOUS =>
              match pyMax (hgc.2.nodeAddrs.map
                  (fun a => (heapNbrs hgc.1 a).card)) with
              | .error e => .error e
              | .ok md => .ok (1 / (md + 1 : ℚ))
           | .ASYNCHRONOUS => .ok (0 : ℚ)) : Except PyErr ℚ) with
    | .error e => .error e
    | .ok alpha =>
      match simLoopH hgc.2 cfg rand alpha cfg.maxIterations hgc.1 0 with
      | .error e => .error e
      | .ok (hf, iters) => .ok (hf, hgc.2, iters)

/-- Well-formedness of a heap-allocated graph: every node address is
allocated and holds an object whose neighbour references point back into
the graph's own node list. -/
def HWf (h : Heap) (g : HGraph) : Prop :=
  ∀ a ∈ g.nodeAddrs, a < h.next ∧
    ∃ nd, h.mem a = some nd ∧ ∀ b ∈ nd.nbrs, b ∈ g.nodeAddrs

/-- The part of `HWf` preserved by value writes: every listed address holds
an object whose neighbour references stay inside the list. -/
def heapNbrsClosed (h : Heap) (addrs : List ℕ) : Prop :=
  ∀ a ∈ addrs, ∃ nd, h.mem a = some nd ∧ ∀ b ∈ nd.nbrs, b ∈ addrs

/-- A concrete one-node heap (node id 0, value 5) for evaluating the frame
property on a closed input. -/
def exampleHeap : Heap :=
  ⟨fun x => if x = 0 then some ⟨0, 5, 5, ∅⟩ else none, 1⟩

def exampleHGraph : HGraph := ⟨[0], 0⟩

section BuildLemmas

/-- Membership after one `_connect`. -/
theorem mem_connect (f : ℕ → Finset ℕ) (a b i j : ℕ) :
    j ∈ connect f a b i ↔ j ∈ f i ∨ (i = a ∧ j = b) ∨ (i = b ∧ j = a) := by
  simp only [connect, addNbr]
  split_ifs with h1 h2 h3 <;> simp_all [Finset.mem_insert] <;> tauto

/-- Membership in a neighbour set built by folding `_connect` over an edge
list: exactly the endpoints paired with `i` by some listed edge. -/
theorem mem_buildNbrs (E : List (ℕ × ℕ)) (i j : ℕ) :
    j ∈ buildNbrs E i ↔ ∃ e ∈ E, (i = e.1 ∧ j = e.2) ∨ (i = e.2 ∧ j = e.1) := by
  suffices h : ∀ (f : ℕ → Finset ℕ),
      j ∈ E.foldl (fun f e => connect f e.1 e.2) f i ↔
        j ∈ f i ∨ ∃ e ∈ E, (i = e.1 ∧ j = e.2) ∨ (i = e.2 ∧ j = e.1) by
    simpa [buildNbrs] using h (fun _ => ∅)
  induction E with
  | nil => simp
  | cons e E ih =>
    intro f
    rw [List.foldl_cons, ih, mem_connect]
    constructor
    · rintro ((h | h) | ⟨e', he', h⟩)
      · exact .inl h
      · exact .inr ⟨e, List.mem_cons_self e E, h⟩
      · exact .inr ⟨e', List.mem_cons_of_mem _ he', h⟩
    · rintro (h | ⟨e', he', h⟩)
      · exact .inl (.inl h)
      · rcases List.mem_cons.mp he' with rfl | he'
        · exact .inl (.inr h)
        · exact .inr ⟨e', he', h⟩

/-- Neighbour relations built by folding `_connect` are always symmetric:
`_connect` inserts both directions. -/
theorem buildNbrs_symm (E : List (ℕ × ℕ)) (i j : ℕ) :
    j ∈ buildNbrs E i ↔ i ∈ buildNbrs E j := by
  simp only [mem_buildNbrs]
  constructor <;> rintro ⟨e, he, (⟨h1, h2⟩ | ⟨h1, h2⟩)⟩ <;>
    exact ⟨e, he, by tauto⟩

/-- Self-membership in a built neighbour set comes from a listed self-pair. -/
theorem self_mem_buildNbrs (E : List (ℕ × ℕ)) (i : ℕ) :
    i ∈ buildNbrs E i ↔ ∃ e ∈ E, i = e.1 ∧ i = e.2 := by
  rw [mem_buildNbrs]
  constructor
  · rintro ⟨e, he, (⟨h1, h2⟩ | ⟨h1, h2⟩)⟩
    · exact ⟨e, he, h1, h2⟩
    · exact ⟨e, he, h2, h1⟩
  · rintro ⟨e, he, h1, h2⟩
    exact ⟨e, he, .inl ⟨h1, h2⟩⟩

end BuildLemmas

section TopologyCharacterization

/-- Neighbour sets of `_initialize_star`: the centre node 0 is adjacent to
every other node, every other node only to the centre. -/
theorem star_nbrs_mem (n i j : ℕ) :
    j ∈ buildNbrs (starEdges n) i ↔
      (i = 0 ∧ 1 ≤ j ∧ j < n) ∨ (j = 0 ∧ 1 ≤ i ∧ i < n) := by
  rw [mem_buildNbrs]
  simp only [starEdges, List.mem_map, List.mem_range]
  constructor
  · rintro ⟨e, ⟨k, hk, rfl⟩, (⟨h1, h2⟩ | ⟨h1, h2⟩)⟩ <;>
      [exact .inl ⟨h1, by omega⟩; exact .inr ⟨h2, by omega⟩]
  · rintro (⟨rfl, h1, h2⟩ | ⟨rfl, h1, h2⟩)
    · exact ⟨(0, j), ⟨j - 1, by omega, by simp; omega⟩, .inl ⟨rfl, rfl⟩⟩
    · exact ⟨(0, i), ⟨i - 1, by omega, by simp; omega⟩, .inr ⟨rfl, rfl⟩⟩

/-- Neighbour sets of `_initialize_tree`: node `i ≥ 1` is adjacent exactly
to its parent `(i-1)/2` and to those of `2i+1`, `2i+2` that exist. -/
theorem tree_nbrs_mem (n i j : ℕ) (hi1 : 1 ≤ i) (hin : i < n) :
    j ∈ buildNbrs (treeEdges n) i ↔
      j = (i - 1) / 2 ∨ ((j = 2 * i + 1 ∨ j = 2 * i + 2) ∧ j < n) := by
  rw [mem_buildNbrs]
  simp only [treeEdges, List.mem_map, List.mem_range]
  constructor
  · rintro ⟨e, ⟨k, hk, rfl⟩, (⟨h1, h2⟩ | ⟨h1, h2⟩)⟩
    · exact .inl (by omega)
    · exact .inr ⟨by omega, by omega⟩
  · rintro (rfl | ⟨hj, hjn⟩)
    · exact ⟨(i, (i - 1) / 2), ⟨i - 1, by omega, by simp; omega⟩, .inl ⟨rfl, rfl⟩⟩
    · exact ⟨(j, i), ⟨j - 1, by omega, by simp; omega⟩, .inr ⟨rfl, rfl⟩⟩

/-- Edge membership for `_initialize_full`: exactly the pairs `a < b < n`. -/
theorem mem_fullEdges (n : ℕ) (e : ℕ × ℕ) :
    e ∈ fullEdges n ↔ e.1 < n ∧ e.2 < n ∧ e.1 < e.2 := by
  cases e with
  | mk a b =>
    simp only [fullEdges, List.mem_flatMap, List.mem_map, List.mem_filter,
      List.mem_range, decide_eq_true_eq]
    constructor
    · rintro ⟨i, hi, j, ⟨hj, hij⟩, h⟩
      obtain ⟨rfl, rfl⟩ := Prod.mk.injEq .. ▸ h
      simp_all
    · rintro ⟨ha, hb, hab⟩
      exact ⟨a, ha, b, ⟨hb, hab⟩, rfl⟩

/-- Neighbour sets of `_initialize_full`: every distinct pair of existing
nodes is adjacent. -/
theorem full_nbrs_mem (n i j : ℕ) :
    j ∈ buildNbrs (fullEdges n) i ↔ i < n ∧ j < n ∧ i ≠ j := by
  rw [mem_buildNbrs]
  constructor
  · rintro ⟨e, he, (⟨rfl, rfl⟩ | ⟨rfl, rfl⟩)⟩ <;>
      · rw [mem_fullEdges] at he
        omega
  · rintro ⟨hi, hj, hij⟩
    rcases Nat.lt_or_ge i j with h | h
    · exact ⟨(i, j), (mem_fullEdges n (i, j)).mpr ⟨hi, hj, h⟩, .inl ⟨rfl, rfl⟩⟩
    · exact ⟨(j, i), (mem_fullEdges n (j, i)).mpr ⟨hj, hi, by omega⟩,
        .inr ⟨rfl, rfl⟩⟩

/-- Neighbour sets of `_initialize_ring` for existing nodes: the successor
and predecessor modulo `n` (which coincide when `n ≤ 2`). -/
theorem ring_nbrs_mem (n i j : ℕ) (hi : i < n) :
    j ∈ buildNbrs (ringEdges n) i ↔ j = (i + 1) % n ∨ j = (i + (n - 1)) % n := by
  rw [mem_buildNbrs]
  simp only [ringEdges, List.mem_map, List.mem_range]
  constructor
  · rintro ⟨e, ⟨k, hk, rfl⟩, (⟨h1, h2⟩ | ⟨h1, h2⟩)⟩
    · exact .inl (by rw [h2, h1])
    · -- `i = (k+1) % n` and `j = k`: then `k = (i + (n-1)) % n`.
      right
      rcases Nat.lt_or_ge (k + 1) n with h | h
      · have hik : i = k + 1 := by rw [h1]; exact Nat.mod_eq_of_lt h
        have : i + (n - 1) = k + n := by omega
        rw [h2, this, Nat.add_mod_right]
        exact (Nat.mod_eq_of_lt (by omega)).symm
      · have hkn : k + 1 = n := by omega
        have hi0 : i = 0 := by rw [h1, hkn, Nat.mod_self]
        have hmod : (n - 1) % n = n - 1 := Nat.mod_eq_of_lt (by omega)
        rw [h2, hi0, Nat.zero_add, hmod]
        omega
  · rintro (rfl | rfl)
    · exact ⟨(i, (i + 1) % n), ⟨i, hi, rfl⟩, .inl ⟨rfl, rfl⟩⟩
    · refine ⟨((i + (n - 1)) % n, ((i + (n - 1)) % n + 1) % n),
        ⟨(i + (n - 1)) % n, Nat.mod_lt _ (by omega), rfl⟩, .inr ⟨?_, rfl⟩⟩
      calc i = i % n := (Nat.mod_eq_of_lt hi).symm
        _ = (i + n) % n := (Nat.add_mod_right i n).symm
        _ = (i + (n - 1) + 1) % n := by congr 1; omega
        _ = ((i + (n - 1)) % n + 1) % n := (Nat.mod_add_mod _ _ _).symm

/-- Graphs built by folding `_connect` over edges between existing nodes are
well-formed. -/
theorem buildNbrs_wf (E : List (ℕ × ℕ)) (n : ℕ)
    (hE : ∀ e ∈ E, e.1 < n ∧ e.2 < n) : Graph.wf ⟨n, buildNbrs E⟩ := by
  intro i
  dsimp only
  constructor
  · intro j hj
    rw [mem_buildNbrs] at hj
    obtain ⟨e, he, (⟨h1, h2⟩ | ⟨h1, h2⟩)⟩ := hj <;>
      · obtain ⟨hl, hr⟩ := hE e he
        rw [Finset.mem_range]
        omega
  · intro hni
    rw [Finset.eq_empty_iff_forall_not_mem]
    intro j hj
    rw [mem_buildNbrs] at hj
    obtain ⟨e, he, (⟨h1, h2⟩ | ⟨h1, h2⟩)⟩ := hj <;>
      · obtain ⟨hl, hr⟩ := hE e he
        omega

theorem ringGraph_wf (n : ℕ) : (ringGraph n).wf := by
  apply buildNbrs_wf
  rintro e he
  simp only [ringEdges, List.mem_map, List.mem_range] at he
  obtain ⟨k, hk, rfl⟩ := he
  exact ⟨hk, Nat.mod_lt _ (by omega)⟩

theorem treeGraph_wf (n : ℕ) : (treeGraph n).wf := by
  apply buildNbrs_wf
  rintro e he
  simp only [treeEdges, List.mem_map, List.mem_range] at he
  obtain ⟨k, hk, rfl⟩ := he
  constructor <;> simp <;> omega

theorem fullGraph_wf (n : ℕ) : (fullGraph n).wf := by
  apply buildNbrs_wf
  intro e he
  rw [mem_fullEdges] at he
  exact ⟨he.1, he.2.1⟩

theorem starGraph_wf (n : ℕ) (g : Graph) (h : starGraph n = .ok g) : g.wf := by
  rw [starGraph] at h
  split_ifs at h with h0
  obtain rfl := (Except.ok.injEq ..).mp h
  apply buildNbrs_wf
  rintro e he
  simp only [starEdges, List.mem_map, List.mem_range] at he
  obtain ⟨k, hk, rfl⟩ := he
  constructor <;> simp <;> omega

/-- Degree of every node of a ring with at least 3 nodes is exactly 2. -/
theorem ring_degree (n i : ℕ) (hn : 3 ≤ n) (hi : i < n) :
    ((ringGraph n).nbrs i).card = 2 := by
  have hset : (ringGraph n).nbrs i = {(i + 1) % n, (i + (n - 1)) % n} := by
    ext j
    rw [ringGraph] at *
    rw [ring_nbrs_mem n i j hi]
    simp [Finset.mem_insert]
  rw [hset]
  apply Finset.card_pair
  intro hcontra
  have hmodeq : (i + 1) % n = (i + (n - 1)) % n := hcontra
  have hle : i + 1 ≤ i + (n - 1) := by omega
  have hdvd : n ∣ (i + (n - 1)) - (i + 1) :=
    (Nat.modEq_iff_dvd' hle).mp hmodeq
  have : (i + (n - 1)) - (i + 1) = n - 2 := by omega
  rw [this] at hdvd
  have := Nat.le_of_dvd (by omega) hdvd
  omega

/-- Star degrees: the centre has degree `n - 1`, every other node degree 1. -/
theorem star_degree (n : ℕ) (g : Graph) (h : starGraph n = .ok g) :
    (g.nbrs 0).card = n - 1 ∧ ∀ i, 1 ≤ i → i < n → (g.nbrs i).card = 1 := by
  rw [starGraph] at h
  split_ifs at h with h0
  obtain rfl := (Except.ok.injEq ..).mp h
  constructor
  · have hset : buildNbrs (starEdges n) 0 = Finset.Ioo 0 n := by
      ext j
      rw [star_nbrs_mem, Finset.mem_Ioo]
      omega
    show (buildNbrs (starEdges n) 0).card = n - 1
    rw [hset, Nat.card_Ioo]
    omega
  · intro i h1 hn
    have hset : buildNbrs (starEdges n) i = {0} := by
      ext j
      rw [star_nbrs_mem, Finset.mem_singleton]
      omega
    show (buildNbrs (starEdges n) i).card = 1
    rw [hset, Finset.card_singleton]

/-- Full-graph degrees: every node has degree `n - 1`. -/
theorem full_degree (n i : ℕ) (hi : i < n) :
    ((fullGraph n).nbrs i).card = n - 1 := by
  have hset : (fullGraph n).nbrs i = (Finset.range n).erase i := by
    ext j
    rw [fullGraph] at *
    rw [full_nbrs_mem, Finset.mem_erase, Finset.mem_range]
    constructor
    · rintro ⟨_, hj, hij⟩; exact ⟨fun hji => hij hji.symm, hj⟩
    · rintro ⟨hji, hj⟩; exact ⟨hi, hj, fun hij => hji hij.symm⟩
  rw [hset, Finset.card_erase_of_mem (Finset.mem_range.mpr hi),
    Finset.card_range]

/-- Self-loops in the built topologies: only `RING` with `n = 1` lists a
self-pair (`(0+1) % 1 = 0`). -/
theorem ring_no_self_loop (n : ℕ) (hn : n ≠ 1) : (ringGraph n).noSelfLoops := by
  intro i hi
  rw [ringGraph] at hi
  rw [self_mem_buildNbrs] at hi
  obtain ⟨e, he, h1, h2⟩ := hi
  simp only [ringEdges, List.mem_map, List.mem_range] at he
  obtain ⟨k, hk, rfl⟩ := he
  simp only at h1 h2
  subst h1
  rcases Nat.lt_or_ge (i + 1) n with h | h
  · rw [Nat.mod_eq_of_lt h] at h2; omega
  · have : n = i + 1 := by omega
    subst this
    rw [Nat.mod_self] at h2
    omega

theorem tree_no_self_loop (n : ℕ) : (treeGraph n).noSelfLoops := by
  intro i hi
  rw [treeGraph] at hi
  rw [self_mem_buildNbrs] at hi
  obtain ⟨e, he, h1, h2⟩ := hi
  simp only [treeEdges, List.mem_map, List.mem_range] at he
  obtain ⟨k, hk, rfl⟩ := he
  simp only at h1 h2
  omega

theorem star_no_self_loop (n : ℕ) (g : Graph) (h : starGraph n = .ok g) :
    g.noSelfLoops := by
  rw [starGraph] at h
  split_ifs at h with h0
  obtain rfl := (Except.ok.injEq ..).mp h
  intro i hi
  rw [self_mem_buildNbrs] at hi
  obtain ⟨e, he, h1, h2⟩ := hi
  simp only [starEdges, List.mem_map, List.mem_range] at he
  obtain ⟨k, hk, rfl⟩ := he
  simp only at h1 h2
  omega

theorem full_no_self_loop (n : ℕ) : (fullGraph n).noSelfLoops := by
  intro i hi
  rw [fullGraph] at hi
  rw [self_mem_buildNbrs] at hi
  obtain ⟨e, he, h1, h2⟩ := hi
  rw [mem_fullEdges] at he
  omega

theorem mesh_no_self_loop (n : ℕ) (draw : ℕ → ℕ → Bool) (g : Graph)
    (h : meshGraph n draw = .ok g) : g.noSelfLoops := by
  rw [meshGraph] at h
  split_ifs at h with h1 h2 h3 <;> obtain rfl := (Except.ok.injEq ..).mp h
  · intro i hi; simp at hi
  all_goals
    intro i hi
    rw [self_mem_buildNbrs] at hi
    obtain ⟨e, he, ha, hb⟩ := hi
    rw [meshEdges, List.mem_filter] at he
    rw [mem_fullEdges] at he
    omega

/-- Mesh graphs (when construction succeeds) are well-formed. -/
theorem meshGraph_wf (n : ℕ) (draw : ℕ → ℕ → Bool) (g : Graph)
    (h : meshGraph n draw = .ok g) : g.wf := by
  rw [meshGraph] at h
  split_ifs at h with h1 h2 h3 <;> obtain rfl := (Except.ok.injEq ..).mp h
  · intro i
    exact ⟨by simp, fun _ => rfl⟩
  all_goals
    apply buildNbrs_wf
    intro e he
    rw [meshEdges, List.mem_filter] at he
    rw [mem_fullEdges] at he
    exact ⟨he.1.1, he.1.2.1⟩

/-- Every successfully constructed topology has a symmetric neighbour
relation: `_connect` always inserts both directions. -/
theorem buildTopology_symm (t : Topology) (n : ℕ) (draw : ℕ → ℕ → Bool)
    (g : Graph) (h : buildTopology t n draw = .ok g) : g.symm := by
  have hempty : ∀ m : ℕ, (Graph.mk m (fun _ => ∅)).symm := by
    intro m i j; simp
  have hbuild : ∀ (m : ℕ) (E : List (ℕ × ℕ)), (Graph.mk m (buildNbrs E)).symm :=
    fun m E i j => buildNbrs_symm E i j
  cases t <;> simp only [buildTopology] at h
  · obtain rfl := (Except.ok.injEq ..).mp h; exact hbuild n (ringEdges n)
  · rw [starGraph] at h
    split_ifs at h
    obtain rfl := (Except.ok.injEq ..).mp h; exact hbuild n (starEdges n)
  · obtain rfl := (Except.ok.injEq ..).mp h; exact hbuild n (treeEdges n)
  · rw [meshGraph] at h
    split_ifs at h <;> obtain rfl := (Except.ok.injEq ..).mp h
    · exact hempty n
    · exact hbuild n (meshEdges n draw)
    · exact hbuild n (meshEdges n draw)
  · obtain rfl := (Except.ok.injEq ..).mp h; exact hbuild n (fullEdges n)

/-- Every successfully constructed topology is well-formed. -/
theorem buildTopology_wf (t : Topology) (n : ℕ) (draw : ℕ → ℕ → Bool)
    (g : Graph) (h : buildTopology t n draw = .ok g) : g.wf := by
  cases t <;> simp only [buildTopology] at h
  · obtain rfl := (Except.ok.injEq ..).mp h; exact ringGraph_wf n
  · exact starGraph_wf n g h
  · obtain rfl := (Except.ok.injEq ..).mp h; exact treeGraph_wf n
  · exact meshGraph_wf n draw g h
  · obtain rfl := (Except.ok.injEq ..).mp h; exact fullGraph_wf n

end TopologyCharacterization

section PyMaxLemmas

variable {α : Type} [LinearOrder α]

theorem foldl_max_init_le (l : List α) (a : α) : a ≤ l.foldl max a := by
  induction l generalizing a with
  | nil => exact le_refl a
  | cons x xs ih => exact le_trans (le_max_left a x) (ih (max a x))

theorem foldl_max_le_of_mem (l : List α) (a x : α) (hx : x ∈ l) :
    x ≤ l.foldl max a := by
  induction l generalizing a with
  | nil => cases hx
  | cons y ys ih =>
    rw [List.foldl_cons]
    rcases List.mem_cons.mp hx with rfl | hx
    · exact le_trans (le_max_right a x) (foldl_max_init_le ys (max a x))
    · exact ih (max a y) hx

theorem foldl_max_eq_init_or_mem (l : List α) (a : α) :
    l.foldl max a = a ∨ l.foldl max a ∈ l := by
  induction l generalizing a with
  | nil => exact .inl rfl
  | cons x xs ih =>
    rcases ih (max a x) with h | h
    · rw [List.foldl_cons, h]
      rcases max_choice a x with hm | hm
      · exact .inl hm
      · exact .inr (by rw [hm]; exact List.mem_cons_self x xs)
    · exact .inr (List.mem_cons_of_mem x h)

theorem foldl_min_init_le (l : List α) (a : α) : l.foldl min a ≤ a := by
  induction l generalizing a with
  | nil => exact le_refl a
  | cons x xs ih => exact le_trans (ih (min a x)) (min_le_left a x)

theorem foldl_min_le_of_mem (l : List α) (a x : α) (hx : x ∈ l) :
    l.foldl min a ≤ x := by
  induction l generalizing a with
  | nil => cases hx
  | cons y ys ih =>
    rw [List.foldl_cons]
    rcases List.mem_cons.mp hx with rfl | hx
    · exact le_trans (foldl_min_init_le ys (min a x)) (min_le_right a x)
    · exact ih (min a y) hx

theorem foldl_min_eq_init_or_mem (l : List α) (a : α) :
    l.foldl min a = a ∨ l.foldl min a ∈ l := by
  induction l generalizing a with
  | nil => exact .inl rfl
  | cons x xs ih =>
    rcases ih (min a x) with h | h
    · rw [List.foldl_cons, h]
      rcases min_choice a x with hm | hm
      · exact .inl hm
      · exact .inr (by rw [hm]; exact List.mem_cons_self x xs)
    · exact .inr (List.mem_cons_of_mem x h)

/-- Python's `max` over a nonempty list returns an upper bound that is
attained by a member. -/
theorem pyMax_ok (l : List α) (m : α) (h : pyMax l = .ok m) :
    (∀ x ∈ l, x ≤ m) ∧ m ∈ l := by
  cases l with
  | nil => cases h
  | cons x xs =>
    have hm : xs.foldl max x = m := by
      have := (Except.ok.injEq ..).mp h
      exact this
    constructor
    · intro y hy
      rcases List.mem_cons.mp hy with rfl | hy
      · rw [← hm]; exact foldl_max_init_le xs y
      · rw [← hm]; exact foldl_max_le_of_mem xs x y hy
    · rw [← hm]
      rcases foldl_max_eq_init_or_mem xs x with h' | h'
      · rw [h']; exact List.mem_cons_self x xs
      · exact List.mem_cons_of_mem x h'

/-- Python's `min` over a nonempty list returns a lower bound that is
attained by a member. -/
theorem pyMin_ok (l : List α) (m : α) (h : pyMin l = .ok m) :
    (∀ x ∈ l, m ≤ x) ∧ m ∈ l := by
  cases l with
  | nil => cases h
  | cons x xs =>
    have hm : xs.foldl min x = m := by
      have := (Except.ok.injEq ..).mp h
      exact this
    constructor
    · intro y hy
      rcases List.mem_cons.mp hy with rfl | hy
      · rw [← hm]; exact foldl_min_init_le xs y
      · rw [← hm]; exact foldl_min_le_of_mem xs x y hy
    · rw [← hm]
      rcases foldl_min_eq_init_or_mem xs x with h' | h'
      · rw [h']; exact List.mem_cons_self x xs
      · exact List.mem_cons_of_mem x h'

/-- `max()` of a nonempty list succeeds. -/
theorem pyMax_ne_error (l : List α) (hl : l ≠ []) : ∃ m, pyMax l = .ok m := by
  cases l with
  | nil => exact absurd rfl hl
  | cons x xs => exact ⟨xs.foldl max x, rfl⟩

theorem pyMin_ne_error (l : List α) (hl : l ≠ []) : ∃ m, pyMin l = .ok m := by
  cases l with
  | nil => exact absurd rfl hl
  | cons x xs => exact ⟨xs.foldl min x, rfl⟩

end PyMaxLemmas

section SumLemmas

/-- Exchange of the double neighbour sum for a symmetric, well-formed
neighbour relation: summing `f i j` over all (sender, receiver) incidences
equals summing `f j i`. -/
theorem sum_nbrs_swap (g : Graph) (hsub : ∀ i, g.nbrs i ⊆ Finset.range g.n)
    (hsym : g.symm) (f : ℕ → ℕ → ℚ) :
    ∑ i ∈ Finset.range g.n, ∑ j ∈ g.nbrs i, f i j
      = ∑ i ∈ Finset.range g.n, ∑ j ∈ g.nbrs i, f j i := by
  rw [Finset.sum_sigma' (Finset.range g.n) (fun i => g.nbrs i)
      (fun i j => f i j),
    Finset.sum_sigma' (Finset.range g.n) (fun i => g.nbrs i)
      (fun i j => f j i)]
  refine Finset.sum_nbij' (fun p => ⟨p.2, p.1⟩) (fun p => ⟨p.2, p.1⟩)
    ?_ ?_ ?_ ?_ ?_
  · rintro ⟨i, j⟩ hp
    rw [Finset.mem_sigma] at hp ⊢
    exact ⟨Finset.mem_range.mpr (Finset.mem_range.mp (hsub i hp.2)),
      (hsym i j).mp hp.2⟩
  · rintro ⟨i, j⟩ hp
    rw [Finset.mem_sigma] at hp ⊢
    exact ⟨Finset.mem_range.mpr (Finset.mem_range.mp (hsub i hp.2)),
      (hsym i j).mp hp.2⟩
  · rintro ⟨i, j⟩ _; rfl
  · rintro ⟨i, j⟩ _; rfl
  · rintro ⟨i, j⟩ _; rfl

/-- Sum of a function mapped over a `Finset.sort` equals the set sum. -/
theorem sum_map_sort (s : Finset ℕ) (f : ℕ → ℚ) :
    ((s.sort (· ≤ ·)).map f).sum = ∑ j ∈ s, f j := by
  have hperm : List.Perm (s.sort (· ≤ ·)) s.toList := Finset.sort_perm_toList _ s
  rw [List.Perm.sum_eq (List.Perm.map f hperm)]
  exact Finset.sum_to_list s f

end SumLemmas

section SimHelpers

theorem range_map_ne_nil {β : Type} (n : ℕ) (hn : 1 ≤ n) (f : ℕ → β) :
    (List.range n).map f ≠ [] := by
  intro h
  have := congrArg List.length h
  simp only [List.length_map, List.length_range, List.length_nil] at this
  omega

theorem getMaxError_ok (g : Graph) (v : ℕ → ℚ) (ta : ℚ) (hn : 1 ≤ g.n) :
    ∃ m, getMaxError g v ta = .ok m := by
  rw [getMaxError]
  exact pyMax_ne_error _ (range_map_ne_nil g.n hn _)

/-- The neighbour chosen by `random.choice(list(node_a.neighbors))` is a
neighbour. -/
theorem sort_getD_mem (s : Finset ℕ) (k : ℕ) (hs : s ≠ ∅) :
    (s.sort (· ≤ ·)).getD (k % (s.sort (· ≤ ·)).length) 0 ∈ s := by
  have hlen : (s.sort (· ≤ ·)).length = s.card := Finset.length_sort _
  have hpos : 0 < (s.sort (· ≤ ·)).length := by
    rw [hlen]
    exact Finset.card_pos.mpr (Finset.nonempty_iff_ne_empty.mpr hs)
  have hidx := Nat.mod_lt k hpos
  rw [List.getD_eq_getElem _ _ hidx]
  exact (Finset.mem_sort _).mp (List.getElem_mem hidx)

/-- Every neighbour is a possible outcome of the uniform neighbour choice. -/
theorem sort_choose (s : Finset ℕ) (b : ℕ) (hb : b ∈ s) :
    ∃ k, (s.sort (· ≤ ·)).getD (k % (s.sort (· ≤ ·)).length) 0 = b := by
  have hbl : b ∈ s.sort (· ≤ ·) := (Finset.mem_sort _).mpr hb
  have hlt : (s.sort (· ≤ ·)).indexOf b < (s.sort (· ≤ ·)).length :=
    List.indexOf_lt_length.mpr hbl
  refine ⟨(s.sort (· ≤ ·)).indexOf b, ?_⟩
  rw [Nat.mod_eq_of_lt hlt, List.getD_eq_getElem _ _ hlt]
  exact List.getElem_indexOf hlt

/-- `_check_consensus` never raises on a graph with at least one node. -/
theorem checkConsensus_ok (g : Graph) (v : ℕ → ℚ) (eps mc : ℚ)
    (alg : Algorithm) (hn : 1 ≤ g.n) :
    ∃ cons, checkConsensus g v eps mc alg = .ok cons := by
  cases alg with
  | SYNCHRONOUS => exact ⟨_, rfl⟩
  | ASYNCHRONOUS =>
    obtain ⟨mx, hmx⟩ :=
      pyMax_ne_error ((List.range g.n).map v) (range_map_ne_nil g.n hn v)
    obtain ⟨mn, hmn⟩ :=
      pyMin_ne_error ((List.range g.n).map v) (range_map_ne_nil g.n hn v)
    refine ⟨decide (mx - mn < eps), ?_⟩
    rw [checkConsensus, hmx, hmn]

/-- Bookkeeping of the main loop: the iteration counter grows by at most
the remaining fuel; it grows by exactly the fuel when the loop never exits
via the `break` (i.e. convergence is never declared); and one `StepResult`
is appended per executed iteration. -/
theorem simLoop_bounds (g : Graph) (cfg : SimulationConfig) (rand : Rand)
    (alpha ta : ℚ) :
    ∀ fuel v iters hist vf itf hf broke,
      simLoop g cfg rand alpha ta fuel v iters hist
          = .ok (vf, itf, hf, broke) →
      iters ≤ itf ∧ itf ≤ iters + fuel
        ∧ (broke = false → itf = iters + fuel)
        ∧ hf.length = hist.length + (itf - iters) := by
  intro fuel
  induction fuel with
  | zero =>
    intro v iters hist vf itf hf broke h
    simp only [simLoop, Except.ok.injEq, Prod.mk.injEq] at h
    obtain ⟨-, rfl, rfl, rfl⟩ := h
    exact ⟨le_refl _, by omega, fun _ => by omega, by omega⟩
  | succ fuel ih =>
    intro v iters hist vf itf hf broke h
    simp only [simLoop] at h
    split at h
    · cases h
    · split at h
      · cases h
      · split at h
        · simp only [Except.ok.injEq, Prod.mk.injEq] at h
          obtain ⟨-, rfl, rfl, rfl⟩ := h
          refine ⟨by omega, by omega, fun hb => by simp at hb, ?_⟩
          rw [List.length_append]
          simp only [List.length_singleton]
          omega
        · obtain ⟨h1, h2, h3, h4⟩ := ih _ _ _ _ _ _ _ h
          rw [List.length_append] at h4
          simp only [List.length_singleton] at h4
          exact ⟨by omega, by omega, fun hb => by have := h3 hb; omega,
            by omega⟩

/-- The main loop never raises on a graph with at least one node. -/
theorem simLoop_ok (g : Graph) (cfg : SimulationConfig) (rand : Rand)
    (alpha ta : ℚ) (hn : 1 ≤ g.n) :
    ∀ fuel v iters hist, ∃ vf itf hf broke,
      simLoop g cfg rand alpha ta fuel v iters hist
        = .ok (vf, itf, hf, broke) := by
  intro fuel
  induction fuel with
  | zero => exact fun v iters hist => ⟨v, iters, hist, false, rfl⟩
  | succ fuel ih =>
    intro v iters hist
    obtain ⟨err, herr⟩ := getMaxError_ok g
      (performUpdate g alpha cfg rand iters v).1 ta hn
    obtain ⟨cons, hcons⟩ := checkConsensus_ok g
      (performUpdate g alpha cfg rand iters v).1 cfg.epsilon
      (performUpdate g alpha cfg rand iters v).2.1 cfg.algorithm hn
    by_cases hc : cons = true
    · subst hc
      refine ⟨(performUpdate g alpha cfg rand iters v).1, iters + 1,
        hist ++ [⟨iters + 1,
          valuesList g (performUpdate g alpha cfg rand iters v).1, err,
          (performUpdate g alpha cfg rand iters v).2.2⟩],
        true, ?_⟩
      simp only [simLoop]
      rw [herr, hcons]
      rfl
    · rw [Bool.not_eq_true] at hc
      subst hc
      obtain ⟨vf, itf, hf, broke, hrec⟩ :=
        ih (performUpdate g alpha cfg rand iters v).1 (iters + 1)
          (hist ++ [⟨iters + 1,
            valuesList g (performUpdate g alpha cfg rand iters v).1, err,
            (performUpdate g alpha cfg rand iters v).2.2⟩])
      refine ⟨vf, itf, hf, broke, ?_⟩
      simp only [simLoop]
      rw [herr, hcons]
      simpa using hrec

/-- `computeAlpha` never raises on a graph with at least one node. -/
theorem computeAlpha_ok (g : Graph) (alg : Algorithm) (hn : 1 ≤ g.n) :
    ∃ alpha, computeAlpha g alg = .ok alpha := by
  cases alg with
  | SYNCHRONOUS =>
    obtain ⟨md, hmd⟩ := pyMax_ne_error
      ((List.range g.n).map (fun i => (g.nbrs i).card))
      (range_map_ne_nil g.n hn _)
    exact ⟨1 / (md + 1 : ℚ), by rw [computeAlpha, hmd]⟩
  | ASYNCHRONOUS => exact ⟨0, rfl⟩

/-- Inversion of a successful pass through the loop part of
`run_simulation`: the pre-loop steps succeeded and the loop produced the
returned outputs. -/
theorem runSimulationLoop_ok_inv (g : Graph) (v : ℕ → ℚ) (ta : ℚ)
    (cfg : SimulationConfig) (rand : Rand) (vf : ℕ → ℚ) (iters : ℕ)
    (hist : List StepResult)
    (h : runSimulationLoop g v ta cfg rand = .ok (vf, iters, hist)) :
    ∃ err0 alpha broke,
      getMaxError g v ta = .ok err0
      ∧ computeAlpha g cfg.algorithm = .ok alpha
      ∧ simLoop g cfg rand alpha ta cfg.maxIterations v 0
          [⟨0, valuesList g v, err0, none⟩] = .ok (vf, iters, hist, broke) := by
  rw [runSimulationLoop] at h
  split at h
  · cases h
  · split at h
    · cases h
    · split at h
      · cases h
      · simp only [Except.ok.injEq, Prod.mk.injEq] at h
        obtain ⟨rfl, rfl, rfl⟩ := h
        exact ⟨_, _, _, by assumption, by assumption, by assumption⟩

/-- The value map committed by a non-degenerate asynchronous step. -/
theorem performAsyncUpdate_vals (g : Graph) (nd : Option NoiseDistribution)
    (pA pB : ℕ) (dA dB : ℚ) (v : ℕ → ℚ)
    (hne : g.nbrs (pA % g.n) ≠ ∅) :
    (performAsyncUpdate g nd pA pB dA dB v).1 = fun i =>
      if i = chosenNbr g (pA % g.n) pB
      then (v (chosenNbr g (pA % g.n) pB) + (v (pA % g.n) + getNoise nd dA)) / 2
      else if i = pA % g.n
      then (v (pA % g.n) + (v (chosenNbr g (pA % g.n) pB) + getNoise nd dB)) / 2
      else v i := by
  rw [performAsyncUpdate, if_neg hne]

/-- In exact arithmetic a committed gossip exchange with
`newA + newB = v a + v b` preserves the total sum. -/
theorem gossip_commit_sum (n : ℕ) (v : ℕ → ℚ) (a b : ℕ) (newA newB : ℚ)
    (han : a < n) (hbn : b < n) (hab : a ≠ b)
    (hsum : newA + newB = v a + v b) :
    ∑ i ∈ Finset.range n,
        (if i = b then newB else if i = a then newA else v i)
      = ∑ i ∈ Finset.range n, v i := by
  have hfun : ∀ i, (if i = b then newB else if i = a then newA else v i)
      = v i + ((if i = a then newA - v a else 0)
          + (if i = b then newB - v b else 0)) := by
    intro i
    by_cases hib : i = b
    · subst hib
      rw [if_pos rfl, if_pos rfl, if_neg (fun h => hab h.symm)]
      ring
    · by_cases hia : i = a
      · subst hia
        rw [if_neg hib, if_pos rfl, if_pos rfl, if_neg hib]
        ring
      · rw [if_neg hib, if_neg hia, if_neg hia, if_neg hib]
        ring
  rw [Finset.sum_congr rfl (fun i _ => hfun i), Finset.sum_add_distrib,
    Finset.sum_add_distrib,
    Finset.sum_ite_eq' (Finset.range n) a (fun _ => newA - v a),
    Finset.sum_ite_eq' (Finset.range n) b (fun _ => newB - v b),
    if_pos (Finset.mem_range.mpr han), if_pos (Finset.mem_range.mpr hbn)]
  linarith [hsum]

/-- An asynchronous gossip step with no noise configured preserves the
total sum of node values. -/
theorem async_sum_preserved (g : Graph) (pA pB : ℕ) (dA dB : ℚ)
    (v : ℕ → ℚ) (hwf : g.wf) (hnsl : g.noSelfLoops) :
    ∑ i ∈ Finset.range g.n, (performAsyncUpdate g none pA pB dA dB v).1 i
      = ∑ i ∈ Finset.range g.n, v i := by
  by_cases hemp : g.nbrs (pA % g.n) = ∅
  · rw [performAsyncUpdate, if_pos hemp]
  · have hbmem : chosenNbr g (pA % g.n) pB ∈ g.nbrs (pA % g.n) :=
      sort_getD_mem _ pB hemp
    have han : pA % g.n < g.n := by
      by_contra hcon
      exact hemp ((hwf (pA % g.n)).2 (not_lt.mp hcon))
    have hbn : chosenNbr g (pA % g.n) pB < g.n :=
      Finset.mem_range.mp ((hwf (pA % g.n)).1 hbmem)
    have hab : pA % g.n ≠ chosenNbr g (pA % g.n) pB := by
      intro h
      rw [← h] at hbmem
      exact hnsl _ hbmem
    rw [performAsyncUpdate_vals g none pA pB dA dB v hemp]
    exact gossip_commit_sum g.n v (pA % g.n) (chosenNbr g (pA % g.n) pB)
      ((v (pA % g.n) + (v (chosenNbr g (pA % g.n) pB) + getNoise none dB)) / 2)
      ((v (chosenNbr g (pA % g.n) pB) + (v (pA % g.n) + getNoise none dA)) / 2)
      han hbn hab (by rw [getNoise, getNoise]; ring)

/-- A synchronous round with no noise configured preserves the total sum of
node values whenever the neighbour relation is symmetric: the
`alpha`-weighted mass exchanged across each edge cancels. -/
theorem sync_sum_preserved (g : Graph) (alpha : ℚ) (noise : ℕ → ℕ → ℚ)
    (v : ℕ → ℚ) (hsub : ∀ i, g.nbrs i ⊆ Finset.range g.n) (hsym : g.symm) :
    ∑ i ∈ Finset.range g.n, (performSyncUpdate g alpha none noise v).1 i
      = ∑ i ∈ Finset.range g.n, v i := by
  have hnext : ∀ i, (performSyncUpdate g alpha none noise v).1 i
      = v i - ((g.nbrs i).card : ℚ) * alpha * v i
          + alpha * ∑ j ∈ g.nbrs i, v j := by
    intro i
    show syncNextValue g alpha none noise v i = _
    rw [syncNextValue]
    simp only [getNoise, add_zero]
    rw [Finset.mul_sum]
    ring
  rw [Finset.sum_congr rfl (fun i _ => hnext i), Finset.sum_add_distrib,
    Finset.sum_sub_distrib]
  have hswap : ∑ i ∈ Finset.range g.n, ∑ j ∈ g.nbrs i, v j
      = ∑ i ∈ Finset.range g.n, ((g.nbrs i).card : ℚ) * v i := by
    rw [sum_nbrs_swap g hsub hsym (fun _ j => v j)]
    refine Finset.sum_congr rfl (fun i _ => ?_)
    rw [Finset.sum_const, nsmul_eq_mul]
  rw [← Finset.mul_sum, hswap, Finset.mul_sum]
  have : ∀ i ∈ Finset.range g.n,
      alpha * (((g.nbrs i).card : ℚ) * v i)
        = ((g.nbrs i).card : ℚ) * alpha * v i := fun i _ => by ring
  rw [Finset.sum_congr rfl this]
  ring

/-- The main loop with no noise configured preserves the total sum of node
values (each synchronous round by symmetry, each gossip step exactly). -/
theorem simLoop_sum_preserved (g : Graph) (cfg : SimulationConfig)
    (rand : Rand) (alpha ta : ℚ) (hwf : g.wf) (hsym : g.symm)
    (hnsl : g.noSelfLoops) (hnd : cfg.noiseDistribution = none) :
    ∀ fuel v iters hist vf itf hf broke,
      simLoop g cfg rand alpha ta fuel v iters hist
          = .ok (vf, itf, hf, broke) →
      ∑ i ∈ Finset.range g.n, vf i = ∑ i ∈ Finset.range g.n, v i := by
  intro fuel
  induction fuel with
  | zero =>
    intro v iters hist vf itf hf broke h
    simp only [simLoop, Except.ok.injEq, Prod.mk.injEq] at h
    rw [h.1]
  | succ fuel ih =>
    intro v iters hist vf itf hf broke h
    have hstep : ∑ i ∈ Finset.range g.n,
        (performUpdate g alpha cfg rand iters v).1 i
          = ∑ i ∈ Finset.range g.n, v i := by
      cases halg : cfg.algorithm with
      | SYNCHRONOUS =>
        simp only [performUpdate, halg, hnd]
        exact sync_sum_preserved g alpha (rand.syncNoise iters) v
          (fun i => (hwf i).1) hsym
      | ASYNCHRONOUS =>
        simp only [performUpdate, halg, hnd]
        exact async_sum_preserved g (rand.pickNode iters) (rand.pickNbr iters)
          (rand.asyncNoiseA iters) (rand.asyncNoiseB iters) v hwf hnsl
    simp only [simLoop] at h
    split at h
    · cases h
    · split at h
      · cases h
      · split at h
        · simp only [Except.ok.injEq, Prod.mk.injEq] at h
          rw [← h.1]
          exact hstep
        · exact (ih _ _ _ _ _ _ _ h).trans hstep

end SimHelpers

section HeapLemmas

theorem setVal_mem_ne (h : Heap) (a : ℕ) (q : ℚ) (x : ℕ) (hx : x ≠ a) :
    (setVal h a q).mem x = h.mem x := by
  simp only [setVal]
  rw [if_neg hx]

theorem list_getD_mod_mem (l : List ℕ) (k : ℕ) (hl : l ≠ []) :
    l.getD (k % l.length) 0 ∈ l := by
  have hpos : 0 < l.length := List.length_pos.mpr hl
  rw [List.getD_eq_getElem _ _ (Nat.mod_lt k hpos)]
  exact List.getElem_mem _

/-- Committing values to the listed addresses leaves every other address
untouched. -/
theorem commit_foldl_mem_not_mem (f : ℕ → ℚ) (addrs : List ℕ) :
    ∀ (h : Heap) (x : ℕ), x ∉ addrs →
      (addrs.foldl (fun h' a => setVal h' a (f a)) h).mem x = h.mem x := by
  induction addrs with
  | nil => intro h x _; rfl
  | cons a as ih =>
    intro h x hx
    rw [List.foldl_cons,
      ih (setVal h a (f a)) x (fun hmem => hx (List.mem_cons_of_mem a hmem))]
    exact setVal_mem_ne h a (f a) x
      (fun hxa => hx (hxa ▸ List.mem_cons_self a as))

theorem commit_foldl_next (f : ℕ → ℚ) (addrs : List ℕ) :
    ∀ h : Heap, (addrs.foldl (fun h' a => setVal h' a (f a)) h).next
      = h.next := by
  induction addrs with
  | nil => intro h; rfl
  | cons a as ih => intro h; rw [List.foldl_cons, ih]; rfl

/-- A value write keeps every listed object present with its neighbour set
unchanged. -/
theorem setVal_nbrsClosed (h : Heap) (addrs : List ℕ) (a : ℕ) (q : ℚ)
    (hcl : heapNbrsClosed h addrs) : heapNbrsClosed (setVal h a q) addrs := by
  intro x hx
  obtain ⟨nd, hnd, hsub⟩ := hcl x hx
  by_cases hxa : x = a
  · subst hxa
    refine ⟨⟨nd.id, q, nd.startingVal, nd.nbrs⟩, ?_, hsub⟩
    simp only [setVal, if_pos rfl, hnd, Option.map_some']
    rw [if_pos trivial]
  · exact ⟨nd, by rw [setVal_mem_ne h a q x hxa]; exact hnd, hsub⟩

theorem commit_foldl_nbrsClosed (f : ℕ → ℚ) (write : List ℕ) :
    ∀ (h : Heap) (addrs : List ℕ), heapNbrsClosed h addrs →
      heapNbrsClosed (write.foldl (fun h' a => setVal h' a (f a)) h) addrs := by
  induction write with
  | nil => intro h addrs hcl; exact hcl
  | cons a as ih =>
    intro h addrs hcl
    rw [List.foldl_cons]
    exact ih _ _ (setVal_nbrsClosed h addrs a (f a) hcl)

theorem heapNbrs_closed_node (h : Heap) (addrs : List ℕ) (a : ℕ)
    (hcl : heapNbrsClosed h addrs) (ha : a ∈ addrs) :
    ∀ b ∈ heapNbrs h a, b ∈ addrs := by
  obtain ⟨nd, hnd, hsub⟩ := hcl a ha
  intro b hb
  apply hsub
  rw [heapNbrs, Heap.node, hnd] at hb
  exact hb

/-- One update of the heap loop writes only to the graph's own node
addresses: everything else is untouched, the allocation bound is unchanged,
and the neighbour-closure invariant is preserved. -/
theorem performUpdateH_frame (h : Heap) (g : HGraph) (alpha : ℚ)
    (cfg : SimulationConfig) (rand : Rand) (t : ℕ)
    (hcl : heapNbrsClosed h g.nodeAddrs) (hnn : g.nodeAddrs ≠ []) :
    (∀ x, x ∉ g.nodeAddrs →
      (performUpdateH h g alpha cfg rand t).1.mem x = h.mem x)
    ∧ heapNbrsClosed (performUpdateH h g alpha cfg rand t).1 g.nodeAddrs
    ∧ (performUpdateH h g alpha cfg rand t).1.next = h.next := by
  cases halg : cfg.algorithm with
  | SYNCHRONOUS =>
    simp only [performUpdateH, halg]
    exact ⟨fun x hx => commit_foldl_mem_not_mem _ _ h x hx,
      commit_foldl_nbrsClosed _ _ h _ hcl, commit_foldl_next _ _ h⟩
  | ASYNCHRONOUS =>
    simp only [performUpdateH, halg]
    rw [performAsyncUpdateH]
    set aaddr := g.nodeAddrs.getD (rand.pickNode t % g.nodeAddrs.length) 0
      with ha_def
    by_cases he : heapNbrs h aaddr = ∅
    · rw [if_pos he]
      exact ⟨fun x _ => rfl, hcl, rfl⟩
    · rw [if_neg he]
      have ha_mem : aaddr ∈ g.nodeAddrs := list_getD_mod_mem _ _ hnn
      set baddr := ((heapNbrs h aaddr).sort (· ≤ ·)).getD
        (rand.pickNbr t % ((heapNbrs h aaddr).sort (· ≤ ·)).length) 0
        with hb_def
      have hb_mem' : baddr ∈ heapNbrs h aaddr := sort_getD_mem _ _ he
      have hb_mem : baddr ∈ g.nodeAddrs :=
        heapNbrs_closed_node h g.nodeAddrs aaddr hcl ha_mem baddr hb_mem'
      refine ⟨?_, ?_, rfl⟩
      · intro x hx
        rw [setVal_mem_ne _ _ _ x (fun hxb => hx (hxb ▸ hb_mem)),
          setVal_mem_ne _ _ _ x (fun hxa => hx (hxa ▸ ha_mem))]
      · exact setVal_nbrsClosed _ _ _ _ (setVal_nbrsClosed _ _ _ _ hcl)

/-- The heap loop writes only to the graph's own node addresses. -/
theorem simLoopH_frame (g : HGraph) (cfg : SimulationConfig) (rand : Rand)
    (alpha : ℚ) (hnn : g.nodeAddrs ≠ []) :
    ∀ fuel h iters hf itf, heapNbrsClosed h g.nodeAddrs →
      simLoopH g cfg rand alpha fuel h iters = .ok (hf, itf) →
      (∀ x, x ∉ g.nodeAddrs → hf.mem x = h.mem x)
        ∧ hf.next = h.next ∧ heapNbrsClosed hf g.nodeAddrs := by
  intro fuel
  induction fuel with
  | zero =>
    intro h iters hf itf hcl heq
    simp only [simLoopH, Except.ok.injEq, Prod.mk.injEq] at heq
    obtain ⟨rfl, -⟩ := heq
    exact ⟨fun x _ => rfl, rfl, hcl⟩
  | succ fuel ih =>
    intro h iters hf itf hcl heq
    obtain ⟨hfr, hcl', hnext⟩ :=
      performUpdateH_frame h g alpha cfg rand iters hcl hnn
    simp only [simLoopH] at heq
    split at heq
    · cases heq
    · split at heq
      · cases heq
      · split at heq
        · simp only [Except.ok.injEq, Prod.mk.injEq] at heq
          obtain ⟨rfl, -⟩ := heq
          exact ⟨hfr, hnext, hcl'⟩
        · obtain ⟨hfr2, hnext2, hcl2⟩ := ih _ _ _ _ hcl' heq
          exact ⟨fun x hx => (hfr2 x hx).trans (hfr x hx),
            hnext2.trans hnext, hcl2⟩

theorem deepcopy_mem_old (h : Heap) (g : HGraph) (x : ℕ) (hx : x < h.next) :
    (deepcopyGraph h g).1.mem x = h.mem x := by
  show (if h.next ≤ x ∧ x < h.next + g.nodeAddrs.length
      then ((h.mem (g.nodeAddrs.getD (x - h.next) 0)).map _)
      else h.mem x) = h.mem x
  rw [if_neg (fun hc => absurd hc.1 (not_le.mpr hx))]

theorem deepcopy_addr_ge (h : Heap) (g : HGraph) (a' : ℕ)
    (ha' : a' ∈ (deepcopyGraph h g).2.nodeAddrs) : h.next ≤ a' := by
  have ha'' : a' ∈ g.nodeAddrs.map
      (fun a => h.next + g.nodeAddrs.indexOf a) := ha'
  obtain ⟨a, ha, rfl⟩ := List.mem_map.mp ha''
  exact Nat.le_add_right _ _

/-- The object copied to a fresh address: same id and values, neighbour
references renamed by the memoised copy map. -/
theorem deepcopy_mem_new (h : Heap) (g : HGraph) (a : ℕ)
    (ha : a ∈ g.nodeAddrs) :
    (deepcopyGraph h g).1.mem (h.next + g.nodeAddrs.indexOf a)
      = (h.mem a).map (fun nd => ⟨nd.id, nd.val, nd.startingVal,
          nd.nbrs.image (fun b => h.next + g.nodeAddrs.indexOf b)⟩) := by
  have hidx : g.nodeAddrs.indexOf a < g.nodeAddrs.length :=
    List.indexOf_lt_length.mpr ha
  show (if h.next ≤ h.next + g.nodeAddrs.indexOf a ∧
      h.next + g.nodeAddrs.indexOf a < h.next + g.nodeAddrs.length
      then ((h.mem (g.nodeAddrs.getD
          (h.next + g.nodeAddrs.indexOf a - h.next) 0)).map _)
      else h.mem (h.next + g.nodeAddrs.indexOf a)) = _
  rw [if_pos ⟨Nat.le_add_right _ _, by omega⟩]
  have harg : h.next + g.nodeAddrs.indexOf a - h.next
      = g.nodeAddrs.indexOf a := by omega
  rw [harg, List.getD_eq_getElem _ _ hidx, List.getElem_indexOf hidx]

/-- The deep copy is neighbour-closed inside its own fresh address list. -/
theorem deepcopy_closed (h : Heap) (g : HGraph) (hwf : HWf h g) :
    heapNbrsClosed (deepcopyGraph h g).1 (deepcopyGraph h g).2.nodeAddrs := by
  intro a' ha'
  have ha'' : a' ∈ g.nodeAddrs.map
      (fun a => h.next + g.nodeAddrs.indexOf a) := ha'
  obtain ⟨a, ha, rfl⟩ := List.mem_map.mp ha''
  obtain ⟨halt, nd, hnd, hsub⟩ := hwf a ha
  refine ⟨⟨nd.id, nd.val, nd.startingVal,
    nd.nbrs.image (fun b => h.next + g.nodeAddrs.indexOf b)⟩, ?_, ?_⟩
  · rw [deepcopy_mem_new h g a ha, hnd, Option.map_some']
  · intro b' hb'
    obtain ⟨b, hb, rfl⟩ := Finset.mem_image.mp hb'
    show _ ∈ (deepcopyGraph h g).2.nodeAddrs
    exact List.mem_map.mpr ⟨b, hsub b hb, rfl⟩

end HeapLemmas

section Claims

/-- C1: for every graph (all graphs this program constructs have a
well-formed, symmetric neighbour relation) and every outcome of the uniform
share draws (hence every `random_range`), the secret-sharing setup — every
node subtracts the sum of its generated shares (`Node.generate_shares`) and
then adds the sum of the shares addressed to it
(`Node.apply_received_shares`, orchestrated per the spec's `apply_shares`) —
leaves the total sum of node values unchanged, exactly (in the exact
arithmetic of this embedding; floating-point rounding is out of scope). -/
theorem secret_sharing_sum_invariant (g : Graph) (sh : ℕ → ℕ → ℚ)
    (v : ℕ → ℚ) (hsub : ∀ i, g.nbrs i ⊆ Finset.range g.n) (hsym : g.symm) :
    ∑ i ∈ Finset.range g.n, applyShares g sh v i
      = ∑ i ∈ Finset.range g.n, v i := by
  have hterm : ∀ i, applyShares g sh v i
      = v i - (∑ j ∈ g.nbrs i, sh i j) + ∑ j ∈ g.nbrs i, sh j i := by
    intro i
    rw [applyShares, applyReceivedShares, generateSharesValue, sum_map_sort]
  rw [Finset.sum_congr rfl (fun i _ => hterm i)]
  rw [Finset.sum_add_distrib, Finset.sum_sub_distrib,
    sum_nbrs_swap g hsub hsym sh]
  ring

/-- Witness for C1: a concrete 3-node full graph with concrete shares. -/
theorem secret_sharing_sum_invariant_witness :
    ∑ i ∈ Finset.range (fullGraph 3).n,
        applyShares (fullGraph 3) (fun i j => (i : ℚ) + 2 * j) (fun i => (i : ℚ)) i
      = ∑ i ∈ Finset.range (fullGraph 3).n, (i : ℚ) :=
  secret_sharing_sum_invariant (fullGraph 3) (fun i j => (i : ℚ) + 2 * j)
    (fun i => (i : ℚ)) (fun i => (fullGraph_wf 3 i).1)
    (fun i j => buildNbrs_symm (fullEdges 3) i j)

/-- C7 counterexample: the claim "no node is ever a member of its own
neighbor set, for every node count and topology" fails at `RING` with
`N = 1`: `_initialize_ring` runs `_connect(nodes[0], nodes[(0+1) % 1])`,
i.e. `_connect(nodes[0], nodes[0])`, making node 0 its own neighbour. -/
theorem ring_one_self_loop_cex :
    buildTopology Topology.RING 1 (fun _ _ => false) = .ok (ringGraph 1)
      ∧ ¬ (ringGraph 1).noSelfLoops :=
  ⟨rfl, fun h => h 0 (by decide)⟩

/-- C7 (amended): for every node count and topology, the constructed
neighbour relation is symmetric; and it is free of self-loops in every case
except `RING` with `N = 1`, where node 0 is its own neighbour. -/
theorem neighbor_symmetry_selfloops (t : Topology) (n : ℕ)
    (draw : ℕ → ℕ → Bool) (g : Graph) (h : buildTopology t n draw = .ok g) :
    g.symm ∧ (¬(t = Topology.RING ∧ n = 1) → g.noSelfLoops) := by
  refine ⟨buildTopology_symm t n draw g h, fun hne => ?_⟩
  cases t with
  | RING =>
    simp only [buildTopology] at h
    obtain rfl := (Except.ok.injEq ..).mp h
    exact ring_no_self_loop n (fun h1 => hne ⟨rfl, h1⟩)
  | STAR => exact star_no_self_loop n g h
  | TREE =>
    simp only [buildTopology] at h
    obtain rfl := (Except.ok.injEq ..).mp h
    exact tree_no_self_loop n
  | MESH => exact mesh_no_self_loop n draw g h
  | FULL =>
    simp only [buildTopology] at h
    obtain rfl := (Except.ok.injEq ..).mp h
    exact full_no_self_loop n

/-- Witness for the amended C7: a concrete 3-node ring. -/
theorem neighbor_symmetry_selfloops_witness :
    (ringGraph 3).symm ∧ (ringGraph 3).noSelfLoops := by
  have h := neighbor_symmetry_selfloops Topology.RING 3 (fun _ _ => false)
    (ringGraph 3) rfl
  exact ⟨h.1, h.2 (by decide)⟩

/-- C8: deterministic topology degree structure — `RING` with `N ≥ 3` gives
every node exactly 2 neighbours; `STAR` gives node 0 degree `N-1` and every
other node degree 1; `TREE` connects node `i ≥ 1` exactly to its parent
`⌊(i-1)/2⌋` and to those of its children `2i+1`, `2i+2` that exist; `FULL`
gives every node degree `N-1`. -/
theorem deterministic_topology_degrees :
    (∀ n i, 3 ≤ n → i < n → ((ringGraph n).nbrs i).card = 2)
    ∧ (∀ n g, starGraph n = .ok g →
        (g.nbrs 0).card = n - 1 ∧ ∀ i, 1 ≤ i → i < n → (g.nbrs i).card = 1)
    ∧ (∀ n i j, 1 ≤ i → i < n →
        (j ∈ (treeGraph n).nbrs i ↔
          j = (i - 1) / 2 ∨ ((j = 2 * i + 1 ∨ j = 2 * i + 2) ∧ j < n)))
    ∧ (∀ n i, i < n → ((fullGraph n).nbrs i).card = n - 1) :=
  ⟨ring_degree, star_degree,
    fun n i j h1 h2 => tree_nbrs_mem n i j h1 h2, full_degree⟩

/-- Witness for C8: concrete instances of all four topologies. -/
theorem deterministic_topology_degrees_witness :
    ((ringGraph 4).nbrs 2).card = 2
    ∧ ((Graph.mk 3 (buildNbrs (starEdges 3))).nbrs 0).card = 3 - 1
    ∧ ((Graph.mk 3 (buildNbrs (starEdges 3))).nbrs 2).card = 1
    ∧ ((3 : ℕ) ∈ (treeGraph 5).nbrs 1 ↔
        (3 : ℕ) = (1 - 1) / 2 ∨
          (((3 : ℕ) = 2 * 1 + 1 ∨ (3 : ℕ) = 2 * 1 + 2) ∧ (3 : ℕ) < 5))
    ∧ ((fullGraph 4).nbrs 1).card = 4 - 1 :=
  ⟨deterministic_topology_degrees.1 4 2 (by decide) (by decide),
    (deterministic_topology_degrees.2.1 3 _ rfl).1,
    (deterministic_topology_degrees.2.1 3 _ rfl).2 2 (by decide) (by decide),
    deterministic_topology_degrees.2.2.1 5 1 3 (by decide) (by decide),
    deterministic_topology_degrees.2.2.2 4 1 (by decide)⟩

/-- C2 is violated by `_initialize_mesh`'s repair pass. Two concrete
failures: with `N = 2` and an Erdős–Rényi draw selecting no edge (an outcome
of positive probability `(1-p) > 0`), the `networkx` graph built only from
edges has no nodes, the component list is empty, the strict zip of two empty
lists succeeds, and an edgeless *disconnected* graph is returned with no
repair; with `N = 3` and a draw selecting exactly the edge `(0,1)`, the
single-component list `[{0,1}]` zipped with its tail `[]` under
`strict=True` raises `ValueError`, so construction fails instead of
returning a repaired connected graph. -/
theorem mesh_connectivity_bug :
    buildTopology Topology.MESH 2 (fun _ _ => false)
        = .ok ⟨2, buildNbrs (meshEdges 2 (fun _ _ => false))⟩
    ∧ isConnectedB ⟨2, buildNbrs (meshEdges 2 (fun _ _ => false))⟩ = false
    ∧ buildNbrs (meshEdges 2 (fun _ _ => false)) 0 = ∅
    ∧ buildTopology Topology.MESH 3 (fun a b => a == 0 && b == 1)
        = .error PyErr.valueErrorZipStrict := by
  exact ⟨rfl, by decide, by decide, rfl⟩

/-- C3: one synchronous round computes, for every node `i` with degree `d`
and neighbour set `S`, `next[i] = (1 - d*alpha) * value[i] + alpha *
Σ_{j ∈ S} (value[j] + noise_j)`, every `next` value a function of the frozen
pre-update valuation only (two-phase compute-then-commit is inherent: the
whole `next` map is produced from `v` before any commit); the returned
`max_change` is the largest absolute per-node difference between old and new
value; synchronous convergence is declared exactly when
`max_change < epsilon`; and `alpha = 1/(max_degree+1)` is computed from the
largest neighbour-set size (the `max` that `run_simulation` feeds into
`alpha`). -/
theorem sync_round_spec (g : Graph) (alpha eps : ℚ)
    (nd : Option NoiseDistribution) (noise : ℕ → ℕ → ℚ) (v : ℕ → ℚ)
    (hn : 1 ≤ g.n) :
    (∀ i, (performSyncUpdate g alpha nd noise v).1 i
        = (1 - (g.nbrs i).card * alpha) * v i
          + alpha * ∑ j ∈ g.nbrs i, (v j + getNoise nd (noise i j)))
    ∧ (∀ i, i < g.n → |v i - (performSyncUpdate g alpha nd noise v).1 i|
          ≤ (performSyncUpdate g alpha nd noise v).2)
    ∧ (∃ i, i < g.n ∧ (performSyncUpdate g alpha nd noise v).2
          = |v i - (performSyncUpdate g alpha nd noise v).1 i|)
    ∧ (∀ mc, checkConsensus g v eps mc Algorithm.SYNCHRONOUS
          = .ok (decide (mc < eps)))
    ∧ (∃ md, pyMax ((List.range g.n).map (fun i => (g.nbrs i).card)) = .ok md
          ∧ computeAlpha g Algorithm.SYNCHRONOUS = .ok (1 / (md + 1 : ℚ))
          ∧ (∀ i, i < g.n → (g.nbrs i).card ≤ md)
          ∧ (∃ i, i < g.n ∧ (g.nbrs i).card = md)) := by
  refine ⟨?_, ?_, ?_, fun mc => rfl, ?_⟩
  · intro i
    show syncNextValue g alpha nd noise v i = _
    rw [syncNextValue, Finset.mul_sum]
  · intro i hi
    apply foldl_max_le_of_mem
    exact List.mem_map.mpr ⟨i, List.mem_range.mpr hi, rfl⟩
  · rcases foldl_max_eq_init_or_mem
        ((List.range g.n).map
          (fun i => |v i - syncNextValue g alpha nd noise v i|)) 0 with h | h
    · refine ⟨0, hn, ?_⟩
      have h0 : |v 0 - syncNextValue g alpha nd noise v 0|
          ≤ List.foldl max 0 ((List.range g.n).map
              (fun i => |v i - syncNextValue g alpha nd noise v i|)) :=
        foldl_max_le_of_mem _ _ _
          (List.mem_map.mpr ⟨0, List.mem_range.mpr hn, rfl⟩)
      show List.foldl max 0 ((List.range g.n).map
          (fun i => |v i - syncNextValue g alpha nd noise v i|))
        = |v 0 - syncNextValue g alpha nd noise v 0|
      rw [h] at h0 ⊢
      exact (le_antisymm h0 (abs_nonneg _)).symm
    · obtain ⟨i, hi, heq⟩ := List.mem_map.mp h
      exact ⟨i, List.mem_range.mp hi, heq.symm⟩
  · obtain ⟨md, hmd⟩ :=
      pyMax_ne_error ((List.range g.n).map (fun i => (g.nbrs i).card))
        (range_map_ne_nil g.n hn _)
    obtain ⟨hub, hmem⟩ := pyMax_ok _ md hmd
    refine ⟨md, hmd, by rw [computeAlpha, hmd], ?_, ?_⟩
    · intro i hi
      exact hub _ (List.mem_map.mpr ⟨i, List.mem_range.mpr hi, rfl⟩)
    · obtain ⟨i, hi, heq⟩ := List.mem_map.mp hmem
      exact ⟨i, List.mem_range.mp hi, heq⟩

/-- Witness for C3: the synchronous convergence test on a concrete ring. -/
theorem sync_round_spec_witness :
    checkConsensus (ringGraph 3) (fun i => (i : ℚ)) 1 0 Algorithm.SYNCHRONOUS
      = .ok (decide ((0 : ℚ) < 1)) :=
  (sync_round_spec (ringGraph 3) (1/4) 1 none (fun _ _ => 0)
    (fun i => (i : ℚ)) (by decide)).2.2.2.1 0

/-- C4: one asynchronous gossip step — if the uniformly chosen node
(`pickA % n` ranges over every possible `random.choice` outcome) has no
neighbours the step is a no-op returning no active pair; otherwise the
chosen peer is one of its neighbours (and every neighbour is a possible
choice), the two committed values are
`new_a = (value_a + (value_b + noise_b)) / 2` and
`new_b = (value_b + (value_a + noise_a)) / 2` with independent per-side
noise, all other values unchanged, and the step returns the id pair; and
asynchronous convergence is declared exactly when
`max(values) - min(values) < epsilon`. -/
theorem async_step_spec (g : Graph) (nd : Option NoiseDistribution)
    (pickA pickB : ℕ) (dA dB : ℚ) (v : ℕ → ℚ) (eps mc : ℚ) :
    (g.nbrs (pickA % g.n) = ∅ →
      performAsyncUpdate g nd pickA pickB dA dB v = (v, none))
    ∧ (g.nbrs (pickA % g.n) ≠ ∅ →
        chosenNbr g (pickA % g.n) pickB ∈ g.nbrs (pickA % g.n))
    ∧ (∀ b, b ∈ g.nbrs (pickA % g.n) →
        ∃ k, chosenNbr g (pickA % g.n) k = b)
    ∧ (∀ b, g.nbrs (pickA % g.n) ≠ ∅ →
        b = chosenNbr g (pickA % g.n) pickB →
        b ≠ pickA % g.n →
        (performAsyncUpdate g nd pickA pickB dA dB v).1 (pickA % g.n)
            = (v (pickA % g.n) + (v b + getNoise nd dB)) / 2
          ∧ (performAsyncUpdate g nd pickA pickB dA dB v).1 b
            = (v b + (v (pickA % g.n) + getNoise nd dA)) / 2
          ∧ (∀ i, i ≠ pickA % g.n → i ≠ b →
              (performAsyncUpdate g nd pickA pickB dA dB v).1 i = v i)
          ∧ (performAsyncUpdate g nd pickA pickB dA dB v).2
            = some (pickA % g.n, b))
    ∧ (1 ≤ g.n →
        ∃ mx mn, pyMax ((List.range g.n).map v) = .ok mx
          ∧ pyMin ((List.range g.n).map v) = .ok mn
          ∧ checkConsensus g v eps mc Algorithm.ASYNCHRONOUS
              = .ok (decide (mx - mn < eps))
          ∧ (∀ i, i < g.n → v i ≤ mx ∧ mn ≤ v i)
          ∧ (∃ i, i < g.n ∧ v i = mx) ∧ (∃ i, i < g.n ∧ v i = mn)) := by
  refine ⟨?_, ?_, ?_, ?_, ?_⟩
  · intro hemp
    rw [performAsyncUpdate, if_pos hemp]
  · intro hne
    exact sort_getD_mem _ pickB hne
  · intro b hb
    exact sort_choose _ b hb
  · intro b hne hb hba
    rw [performAsyncUpdate, if_neg hne]
    subst hb
    refine ⟨?_, ?_, ?_, rfl⟩
    · show (if pickA % g.n = _ then _ else if pickA % g.n = pickA % g.n
        then _ else _) = _
      rw [if_neg (fun h => hba h.symm), if_pos rfl]
    · show (if _ = _ then _ else _) = _
      rw [if_pos rfl]
    · intro i hia hib
      show (if i = _ then _ else if i = pickA % g.n then _ else _) = v i
      rw [if_neg hib, if_neg hia]
  · intro hn
    obtain ⟨mx, hmx⟩ :=
      pyMax_ne_error ((List.range g.n).map v) (range_map_ne_nil g.n hn v)
    obtain ⟨mn, hmn⟩ :=
      pyMin_ne_error ((List.range g.n).map v) (range_map_ne_nil g.n hn v)
    obtain ⟨hubx, hmemx⟩ := pyMax_ok _ mx hmx
    obtain ⟨hlbn, hmemn⟩ := pyMin_ok _ mn hmn
    refine ⟨mx, mn, hmx, hmn, ?_, ?_, ?_, ?_⟩
    · rw [checkConsensus]
      rw [hmx, hmn]
    · intro i hi
      exact ⟨hubx _ (List.mem_map.mpr ⟨i, List.mem_range.mpr hi, rfl⟩),
        hlbn _ (List.mem_map.mpr ⟨i, List.mem_range.mpr hi, rfl⟩)⟩
    · obtain ⟨i, hi, heq⟩ := List.mem_map.mp hmemx
      exact ⟨i, List.mem_range.mp hi, heq⟩
    · obtain ⟨i, hi, heq⟩ := List.mem_map.mp hmemn
      exact ⟨i, List.mem_range.mp hi, heq⟩

/-- Witness for C4: the no-op case on a concrete isolated node (2-node mesh
with an empty draw) and the commit case on a concrete 2-node full graph. -/
theorem async_step_spec_witness :
    performAsyncUpdate ⟨2, buildNbrs (meshEdges 2 (fun _ _ => false))⟩ none
        0 0 0 0 (fun i : ℕ => (i : ℚ))
      = ((fun i : ℕ => (i : ℚ)), (none : Option (ℕ × ℕ)))
    ∧ (performAsyncUpdate (fullGraph 2) none 0 0 0 0
        (fun i : ℕ => (i : ℚ))).2 = some (0, 1) := by
  constructor
  · exact (async_step_spec ⟨2, buildNbrs (meshEdges 2 (fun _ _ => false))⟩
      none 0 0 0 0 (fun i : ℕ => (i : ℚ)) 0 0).1 (by decide)
  · have hset : (fullGraph 2).nbrs (0 % (fullGraph 2).n) = {1} := by decide
    have hb : (1 : ℕ) = chosenNbr (fullGraph 2) (0 % (fullGraph 2).n) 0 := by
      rw [chosenNbr, hset, Finset.sort_singleton]
      rfl
    exact ((async_step_spec (fullGraph 2) none 0 0 0 0
        (fun i : ℕ => (i : ℚ)) 0 0).2.2.2.1 1
        (by rw [hset]; decide) hb (by decide)).2.2.2

/-- C6 is violated: `run_simulation` on a zero-node graph performs no
empty-graph precondition check at all. The first history entry's
`graph.get_max_error()` (and, for the synchronous algorithm, the
`max(len(node.neighbors) for node in graph.nodes)` feeding `alpha`) raise
`ValueError: max() arg is an empty sequence` — exactly the failure mode the
spec's error-handling section rules out — rather than a clear "empty graph"
condition (the `_check_consensus` comment claims the ≥ 1 node assumption is
"handled by the main function", but no such check exists anywhere). -/
theorem empty_graph_run_crash (v : ℕ → ℚ) (ta : ℚ) (cfg : SimulationConfig)
    (rand : Rand) :
    runSimulation ⟨0, fun _ => ∅⟩ v ta cfg rand
        = .error PyErr.valueErrorEmptyMax
      ∧ PyErr.valueErrorEmptyMax ≠ PyErr.emptyGraph :=
  ⟨rfl, by decide⟩

/-- C9 is violated at its "returns normally" conclusion. For every graph
with at least one node and every configuration the main loop itself does
terminate within `max_iterations` iterations (reaching the cap raises
nothing in the loop, the history holds entry 0 plus one entry per executed
iteration, and whenever convergence is never declared — the loop never
exits via `break` — the count equals exactly the cap); but the final
`SimulationResult(...)` constructor call omits the required `name` field of
the `results.py` dataclass, so every run of `run_simulation` raises
`TypeError` at result construction instead of returning normally. -/
theorem run_result_construction_typeerror (g : Graph) (v : ℕ → ℚ) (ta : ℚ)
    (cfg : SimulationConfig) (rand : Rand) (hn : 1 ≤ g.n) :
    runSimulation g v ta cfg rand = .error PyErr.typeErrorMissingName
    ∧ (∃ vf iters hist,
        runSimulationLoop g v ta cfg rand = .ok (vf, iters, hist)
          ∧ iters ≤ cfg.maxIterations
          ∧ hist.length = iters + 1)
    ∧ (∀ alpha fuel v' iters hist vf itf hf,
        simLoop g cfg rand alpha ta fuel v' iters hist
            = .ok (vf, itf, hf, false) →
        itf = iters + fuel) := by
  obtain ⟨err0, herr0⟩ := getMaxError_ok g v ta hn
  obtain ⟨alpha, halpha⟩ := computeAlpha_ok g cfg.algorithm hn
  obtain ⟨vf, itf, hf, broke, hloop⟩ :=
    simLoop_ok g cfg rand alpha ta hn cfg.maxIterations v 0
      [⟨0, valuesList g v, err0, none⟩]
  obtain ⟨hb1, hb2, -, hb4⟩ := simLoop_bounds g cfg rand alpha ta
    cfg.maxIterations v 0 _ vf itf hf broke hloop
  have hloopok : runSimulationLoop g v ta cfg rand = .ok (vf, itf, hf) := by
    simp only [runSimulationLoop, herr0, halpha, hloop]
  refine ⟨?_, ⟨vf, itf, hf, hloopok, by omega, ?_⟩, ?_⟩
  · simp only [runSimulation, hloopok, mkSimulationResult]
  · simp only [List.length_singleton] at hb4
    omega
  · intro alpha' fuel v' iters hist vf' itf' hf' h
    exact (simLoop_bounds g cfg rand alpha' ta fuel v' iters hist vf' itf'
      hf' false h).2.2.1 rfl

/-- Witness for the C9 failure: a 1-node full graph, synchronous, cap 2. -/
theorem run_result_construction_typeerror_witness :
    runSimulation (fullGraph 1) (fun _ => 0) 0
        ⟨Algorithm.SYNCHRONOUS, 2, 1, none⟩
        ⟨fun _ _ _ => 0, fun _ => 0, fun _ => 0, fun _ => 0, fun _ => 0⟩
      = .error PyErr.typeErrorMissingName :=
  (run_result_construction_typeerror (fullGraph 1) (fun _ => 0) 0
    ⟨Algorithm.SYNCHRONOUS, 2, 1, none⟩
    ⟨fun _ _ _ => 0, fun _ => 0, fun _ => 0, fun _ => 0, fun _ => 0⟩
    (by decide)).1

/-- C10: in exact arithmetic with no noise distribution configured
(`_get_noise` returns exactly `0.0`), a synchronous round preserves the sum
of all node values whenever the neighbour relation is well-formed and
symmetric; an asynchronous gossip step preserves it (on the self-loop-free
graphs this program builds, since `new_a + new_b = value_a + value_b`);
hence across the entire main loop of `run_simulation` the sum — and so the
mean (`graph.avg`, read for `final_avg` just before the result
construction) — is invariant. -/
theorem no_noise_sum_mean_invariant :
    (∀ (g : Graph) (alpha : ℚ) (noise : ℕ → ℕ → ℚ) (v : ℕ → ℚ),
      (∀ i, g.nbrs i ⊆ Finset.range g.n) → g.symm →
      ∑ i ∈ Finset.range g.n, (performSyncUpdate g alpha none noise v).1 i
        = ∑ i ∈ Finset.range g.n, v i)
    ∧ (∀ (g : Graph) (pA pB : ℕ) (dA dB : ℚ) (v : ℕ → ℚ),
      g.wf → g.noSelfLoops →
      ∑ i ∈ Finset.range g.n, (performAsyncUpdate g none pA pB dA dB v).1 i
        = ∑ i ∈ Finset.range g.n, v i)
    ∧ (∀ (g : Graph) (v : ℕ → ℚ) (ta : ℚ) (cfg : SimulationConfig)
        (rand : Rand) (vf : ℕ → ℚ) (iters : ℕ) (hist : List StepResult),
      g.wf → g.symm → g.noSelfLoops → cfg.noiseDistribution = none →
      runSimulationLoop g v ta cfg rand = .ok (vf, iters, hist) →
      ∑ i ∈ Finset.range g.n, vf i = ∑ i ∈ Finset.range g.n, v i
        ∧ avg g vf = avg g v) := by
  refine ⟨sync_sum_preserved, async_sum_preserved, ?_⟩
  intro g v ta cfg rand vf iters hist hwf hsym hnsl hnd hrun
  obtain ⟨err0, alpha, broke, -, -, hloop⟩ :=
    runSimulationLoop_ok_inv g v ta cfg rand vf iters hist hrun
  have hsum := simLoop_sum_preserved g cfg rand alpha ta hwf hsym hnsl hnd
    cfg.maxIterations v 0 _ vf iters hist broke hloop
  exact ⟨hsum, by rw [avg, avg, hsum]⟩

/-- Witness for C10: a concrete synchronous round and a concrete gossip
step on the 2-node full graph. -/
theorem no_noise_sum_mean_invariant_witness :
    ∑ i ∈ Finset.range (fullGraph 2).n,
        (performSyncUpdate (fullGraph 2) (1/2) none (fun _ _ => 0)
          (fun i : ℕ => (i : ℚ))).1 i
      = ∑ i ∈ Finset.range (fullGraph 2).n, (i : ℚ)
    ∧ ∑ i ∈ Finset.range (fullGraph 2).n,
        (performAsyncUpdate (fullGraph 2) none 0 0 0 0
          (fun i : ℕ => (i : ℚ))).1 i
      = ∑ i ∈ Finset.range (fullGraph 2).n, (i : ℚ) :=
  ⟨no_noise_sum_mean_invariant.1 (fullGraph 2) (1/2) (fun _ _ => 0)
      (fun i : ℕ => (i : ℚ)) (fun i => (fullGraph_wf 2 i).1)
      (fun i j => buildNbrs_symm (fullEdges 2) i j),
    no_noise_sum_mean_invariant.2.1 (fullGraph 2) 0 0 0 0
      (fun i : ℕ => (i : ℚ)) (fullGraph_wf 2) (full_no_self_loop 2)⟩

/-- C5: `run_simulation` operates on an independent deep copy. For every
well-formed base graph (nodes allocated, neighbour back-references closed),
after a successful run every node object of the caller's graph is unchanged
on the heap — its `id`, `value`, `starting_value` and `neighbors` set are
exactly as before the call — and the returned result's graph shares no node
object (no heap address) with the base graph, so the same base graph can
seed multiple runs without cross-contamination. -/
theorem run_simulation_deepcopy_frame (h : Heap) (g : HGraph)
    (cfg : SimulationConfig) (rand : Rand) (hwf : HWf h g)
    (hf : Heap) (gc : HGraph) (iters : ℕ)
    (hrun : runSimulationH h g cfg rand = .ok (hf, gc, iters)) :
    (∀ a ∈ g.nodeAddrs, hf.mem a = h.mem a)
    ∧ (∀ a ∈ gc.nodeAddrs, a ∉ g.nodeAddrs) := by
  rw [runSimulationH] at hrun
  split at hrun
  · cases hrun
  · rename_i err0 hgm
    split at hrun
    · cases hrun
    · split at hrun
      · cases hrun
      · rename_i alpha halpha scrut hfin itersfin hloop
        simp only [Except.ok.injEq, Prod.mk.injEq] at hrun
        obtain ⟨rfl, rfl, rfl⟩ := hrun
        have hgcne : (deepcopyGraph h g).2.nodeAddrs ≠ [] := by
          intro hnil
          rw [getMaxErrorH, hnil] at hgm
          cases hgm
        obtain ⟨hfr, hnext, -⟩ := simLoopH_frame (deepcopyGraph h g).2 cfg
          rand alpha hgcne cfg.maxIterations (deepcopyGraph h g).1 0 hfin
          itersfin (deepcopy_closed h g hwf) hloop
        constructor
        · intro a ha
          have halt : a < h.next := (hwf a ha).1
          have hnotin : a ∉ (deepcopyGraph h g).2.nodeAddrs := fun hin =>
            absurd (deepcopy_addr_ge h g a hin) (not_le.mpr halt)
          rw [hfr a hnotin, deepcopy_mem_old h g a halt]
        · intro a hin ha
          exact absurd (deepcopy_addr_ge h g a hin)
            (not_le.mpr (hwf a ha).1)

/-- Witness for C5: a concrete one-node heap run with the cap at 0. -/
theorem run_simulation_deepcopy_frame_witness :
    runSimulationH exampleHeap exampleHGraph
        ⟨Algorithm.SYNCHRONOUS, 0, 1, none⟩
        ⟨fun _ _ _ => 0, fun _ => 0, fun _ => 0, fun _ => 0, fun _ => 0⟩
      = .ok ((deepcopyGraph exampleHeap exampleHGraph).1,
          (deepcopyGraph exampleHeap exampleHGraph).2, 0)
    ∧ (∀ a ∈ exampleHGraph.nodeAddrs,
        ((deepcopyGraph exampleHeap exampleHGraph).1).mem a
          = exampleHeap.mem a)
    ∧ (∀ a ∈ (deepcopyGraph exampleHeap exampleHGraph).2.nodeAddrs,
        a ∉ exampleHGraph.nodeAddrs) := by
  have hwf : HWf exampleHeap exampleHGraph := by
    intro a ha
    rw [exampleHGraph] at ha
    rw [List.mem_singleton] at ha
    subst ha
    exact ⟨by decide, ⟨0, 5, 5, ∅⟩, rfl, by simp⟩
  obtain ⟨h1, h2⟩ := run_simulation_deepcopy_frame exampleHeap exampleHGraph
    ⟨Algorithm.SYNCHRONOUS, 0, 1, none⟩
    ⟨fun _ _ _ => 0, fun _ => 0, fun _ => 0, fun _ => 0, fun _ => 0⟩ hwf
    (deepcopyGraph exampleHeap exampleHGraph).1
    (deepcopyGraph exampleHeap exampleHGraph).2 0 rfl
  exact ⟨rfl, h1, h2⟩

end Claims

end PEMini
